import Mathlib

/-!
# A shallow embedding of pavex's call-graph code generator

This file embeds `src/libs/pavex/src/compiler/analyses/call_graph/codegen.rs`
in Lean 4 and proves properties of it.

The repository ships only `codegen.rs` for the compiler core; the helper
modules it imports (`codegen_utils`, `core_graph`, the component and
computation databases, `ResolvedType`) are declared and called but their
sources are not part of the repository snapshot.  Definitions for those
helpers are modelled from the specification and carry a doc comment starting
with `Modelled from the spec:`.  Everything else is translated directly from
`codegen.rs`; comments cite the line numbers of the source.

Conventions of the embedding:
* Node indices (`petgraph::graph::NodeIndex`) are `Nat`.
* Hash maps that the source uses exclusively for point lookups
  (`blocks`, `parameter_bindings`) are association lists; the insertion-ordered
  `IndexMap` (`at_most_once_constructor_blocks`) is an append-only list.
* Rust panics (`unreachable!`, `assert_eq!`, `unwrap`, indexing panics) are
  modelled as distinct `CodegenError` values, so that "panics at site X" is a
  provable, site-precise statement.
* Recursion is made total with fuel.  The top-level entry points pick a fuel
  that is provably sufficient for every input, so fuel exhaustion is a
  modelling artifact that never occurs (proved below where needed).
-/

namespace Pavex

/-! ## Type and callable model (§4.1 of the spec) -/

/-- Modelled from the spec: `ResolvedType` is "an opaque, structurally
compared, fully-qualified type reference" that supports equality, hashing and
rendering through a package-id-to-name map.  We model it as a package id plus
a path string. -/
structure ResolvedType where
  package_id : Nat
  name : String
deriving DecidableEq, Repr

/-- Modelled from the spec: "render as target-language syntax given a
package-id-to-name map" (`ResolvedType::syn_type(package_id2name)` in the
source).  The rendering is deterministic in the type and the map. -/
def ResolvedType.syn_type (t : ResolvedType) (package_id2name : List (Nat × String)) : String :=
  match (package_id2name.find? (fun p => p.1 == t.package_id)) with
  | some p => p.2 ++ "::" ++ t.name
  | none => t.name

/-- Modelled from the spec: a `Callable` is "a referenced symbol with ordered
input types and an output type". -/
structure Callable where
  name : String
  inputs : List ResolvedType
  output : ResolvedType
deriving DecidableEq, Repr

/-- `MatchResultVariant` from `crate::compiler::computation` (declaration not
in the snapshot).  Modelled from the spec: the two projections of a fallible
result, `Ok` and `Err`. -/
inductive MatchResultVariant where
  | ok
  | err
deriving DecidableEq, Repr

/-- Modelled from the spec: a `Computation` is either "`Callable(Callable)` —
a function to invoke" or "`MatchResult { variant: Ok|Err, inner_type }` — a
projection that names one branch of a fallible value's result". -/
inductive Computation where
  | callable (c : Callable)
  | matchResult (variant : MatchResultVariant) (inner_type : ResolvedType)
deriving DecidableEq, Repr

/-- Modelled from the spec: the output type of a computation — the callable's
declared output, or the projected inner type of a `MatchResult`. -/
def Computation.output_type : Computation → ResolvedType
  | .callable c => c.output
  | .matchResult _ t => t

/-! ## Computation and component databases (§4.2, §4.3 of the spec) -/

/-- Modelled from the spec: the computation database is "a stable append-only
registry keyed by insertion id" with `get(id) -> Computation`. -/
structure ComputationDb where
  computations : List Computation
deriving DecidableEq, Repr

/-- Modelled from the spec: `HydratedComponent` is a tagged variant:
constructor, request handler, error handler, or transformer. -/
inductive HydratedComponent where
  | constructor (c : Computation)
  | requestHandler (c : Callable)
  | errorHandler (c : Callable)
  | transformer (c : Computation)
deriving DecidableEq, Repr

/-- Modelled from the spec: every hydrated component exposes a computation
(handlers and error handlers are callables). -/
def HydratedComponent.computation : HydratedComponent → Computation
  | .constructor c => c
  | .requestHandler c => .callable c
  | .errorHandler c => .callable c
  | .transformer c => c

/-- Modelled from the spec: "All components expose an `output_type()`". -/
def HydratedComponent.output_type (h : HydratedComponent) : ResolvedType :=
  h.computation.output_type

/-- The component kind tags stored in the component database, from which
components are hydrated. -/
inductive ComponentKind where
  | constructor
  | requestHandler
  | errorHandler
  | transformer
deriving DecidableEq, Repr

/-- Modelled from the spec: the component database "hydrates components from
their computation references and auxiliary metadata"; a component id is an
opaque handle (here: a position). -/
structure ComponentDb where
  components : List (ComponentKind × Nat)
deriving DecidableEq, Repr

/-- Modelled from the spec: `hydrated_component(component_id, &computation_db)
-> HydratedComponent`, a pure lookup.  Unknown ids (or a handler entry whose
computation is not a callable) cannot be hydrated and yield `none`, the
embedding of a lookup panic. -/
def ComponentDb.hydrated_component (db : ComponentDb) (id : Nat)
    (computation_db : ComputationDb) : Option HydratedComponent := do
  let entry ← db.components[id]?
  let comp ← computation_db.computations[entry.2]?
  match entry.1 with
  | .constructor => some (.constructor comp)
  | .transformer => some (.transformer comp)
  | .requestHandler =>
      match comp with
      | .callable c => some (.requestHandler c)
      | _ => none
  | .errorHandler =>
      match comp with
      | .callable c => some (.errorHandler c)
      | _ => none

/-! ## Call graph (§3 of the spec; `core_graph` is not in the snapshot) -/

/-- Modelled from the spec: `NumberOfAllowedInvocations` — "`Single` means the
value must be bound to a variable and reused; `Multiple` means it is
recomputed inline at every consumer". -/
inductive NumberOfAllowedInvocations where
  | single
  | multiple
deriving DecidableEq, Repr

/-- Modelled from the spec: `CallGraphNode` is `Compute`, `InputParameter`, or
`MatchBranching`. -/
inductive CallGraphNode where
  | compute (component_id : Nat) (n_allowed_invocations : NumberOfAllowedInvocations)
  | inputParameter (type_ : ResolvedType)
  | matchBranching
deriving DecidableEq, Repr

/-- Modelled from the spec: `CallGraphEdgeMetadata` is a per-edge tag, e.g.
"consume by value" or "consume by reference". -/
inductive CallGraphEdgeMetadata where
  | move
  | sharedBorrow
deriving DecidableEq, Repr

/-- A directed edge of the raw call graph, in insertion order position. -/
structure GraphEdge where
  source : Nat
  target : Nat
  weight : CallGraphEdgeMetadata
deriving DecidableEq, Repr

/-- `RawCallGraph = StableDiGraph<CallGraphNode, CallGraphEdgeMetadata>`:
an arena of nodes (indexed by position) plus a list of edges in insertion
order. -/
structure RawCallGraph where
  nodes : List CallGraphNode
  edges : List GraphEdge
deriving DecidableEq, Repr

/-- `CallGraph`: the pair of a `RawCallGraph` and the root node index. -/
structure CallGraph where
  call_graph : RawCallGraph
  root_node_index : Nat
deriving DecidableEq, Repr

/-- Successors of a node, in edge-insertion order. -/
def RawCallGraph.succList (g : RawCallGraph) (i : Nat) : List Nat :=
  (g.edges.filter (fun e => e.source == i)).map (fun e => e.target)

/-- Predecessors of a node, in edge-insertion order. -/
def RawCallGraph.predList (g : RawCallGraph) (i : Nat) : List Nat :=
  (g.edges.filter (fun e => e.target == i)).map (fun e => e.source)

/-- `graph.neighbors_directed(i, Direction::Outgoing)`: petgraph iterates
adjacency in reverse order of edge insertion. -/
def RawCallGraph.successors (g : RawCallGraph) (i : Nat) : List Nat :=
  (g.succList i).reverse

/-- `graph.neighbors_directed(i, Direction::Incoming)`: reverse insertion
order, as for successors. -/
def RawCallGraph.predecessors (g : RawCallGraph) (i : Nat) : List Nat :=
  (g.predList i).reverse

/-- `graph.edges_directed(i, Direction::Incoming)`: the incoming edges, in
reverse insertion order (petgraph's edge iteration order). -/
def RawCallGraph.incomingEdges (g : RawCallGraph) (i : Nat) : List GraphEdge :=
  (g.edges.filter (fun e => e.target == i)).reverse

/-- Append `t` unless already present (used to deduplicate while keeping the
first-occurrence order). -/
def dedupKeepFirst (acc : List ResolvedType) (t : ResolvedType) : List ResolvedType :=
  if t ∈ acc then acc else acc ++ [t]

/-- Modelled from the spec: `CallGraph::required_input_types` — "the
required-input set is the union of `InputParameter` node types", in the
deterministic order of node insertion, without duplicates. -/
def CallGraph.required_input_types (cg : CallGraph) : List ResolvedType :=
  (cg.call_graph.nodes.filterMap
    (fun n => match n with
      | .inputParameter t => some t
      | _ => none)).foldl dedupKeepFirst []


/-! ## The emitted code (TokenStream / syn fragments) -/

/-- A match-arm pattern of the generated `match`: `Ok(name)` or `Err(name)`
(codegen.rs lines 239-250). -/
inductive MatchPat where
  | okPat (binding : String)
  | errPat (binding : String)
deriving DecidableEq, Repr

mutual
/-- The expressions appearing in the generated handler body.  This is the
shallow model of the `TokenStream`s built by `quote!` in codegen.rs. -/
inductive Expr where
  | var (n : String)
  | borrow (e : Expr)
  | call (callee : String) (args : List Expr)
  | blockE (stmts : List Stmt)
  | matchE (scrutinee : Expr) (arms : List (MatchPat × List Stmt))

/-- Generated statements: `let <n> = <e>;` or a bare expression. -/
inductive Stmt where
  | letS (n : String) (e : Expr)
  | exprS (e : Expr)
end

/-- `Fragment` from `codegen_utils` (not in the snapshot).  Modelled from the
spec: "a rendered code snippet associated with a node during emission — a
variable reference, a statement, or a block". -/
inductive Fragment where
  | variableReference (n : String)
  | statement (s : Stmt)
  | block (stmts : List Stmt)

/-- "Remove the wrapping block, if there is one" (lines 286-294): a block
fragment contributes its statements, a statement fragment itself, a variable
reference a bare variable expression. -/
def Fragment.stmts : Fragment → List Stmt
  | .variableReference n => [Stmt.exprS (Expr.var n)]
  | .statement s => [s]
  | .block stmts => stmts

/-- Interpolating a `Fragment` into an expression position of a `quote!`
template (e.g. `let #name = #block;` on line 171-173, `match #result_binding`
on line 274). -/
def Fragment.toExpr : Fragment → Expr
  | .variableReference n => .var n
  | .statement (.exprS e) => e
  | .statement s => .blockE [s]
  | .block stmts => .blockE stmts

/-- `VariableNameGenerator` from `codegen_utils` (not in the snapshot).
Modelled from the spec: "a monotonic generator producing stable,
collision-free names (e.g. `v0`, `v1`, …)"; "the generator is cloneable so
that each match arm derives an independent name stream after the branch". -/
structure VariableNameGenerator where
  counter : Nat
deriving DecidableEq, Repr

/-- Generate the next name and the advanced generator. -/
def VariableNameGenerator.generate (g : VariableNameGenerator) :
    String × VariableNameGenerator :=
  ("v" ++ toString g.counter, ⟨g.counter + 1⟩)

/-- The generated `syn::ItemFn`, restricted to the shape produced on lines
74-79: `pub async fn handler(<inputs>) -> <output> { <body> }`. -/
structure ItemFn where
  name : String
  is_async : Bool
  inputs : List (String × String)
  output : String
  body : List Stmt

/-! ## Post-order DFS (petgraph's `DfsPostOrder` on the given graph)

`DfsPostOrder::next` maintains an explicit stack: when a node is first
discovered its not-yet-discovered neighbors are pushed (in iteration order,
i.e. reverse edge-insertion order, so the earliest-inserted neighbor ends on
top and is descended into first); when a discovered node resurfaces it is
popped and emitted.  On a DAG this produces exactly the finish order of the
recursive DFS below, which descends into neighbors in edge-insertion order
and skips nodes already discovered at the moment of the descent.  `visited`
is the combined discovered/finished set (they coincide whenever the stack is
empty, which is the only state in which the generator's DFS is reused or
cloned).  Fuel bounds the recursion depth; `none` means exhaustion. -/

mutual
/-- Visit `x`: skip if already visited, otherwise mark it, finish all
neighbors first, then emit `x`.  Returns the finish order and the final
visited set.  The fuel is decremented at every recursive call (structural
recursion, so concrete runs reduce definitionally); `none` is exhaustion. -/
def dfsPost (nbrs : Nat → List Nat) : Nat → List Nat → Nat → Option (List Nat × List Nat)
  | fuel, visited, x =>
    if x ∈ visited then some ([], visited)
    else
      match fuel with
      | 0 => none
      | fuel + 1 =>
        match dfsPostList nbrs fuel (x :: visited) (nbrs x) with
        | none => none
        | some (order, visited) => some (order ++ [x], visited)

/-- Visit each node of `l` in order, threading the visited set. -/
def dfsPostList (nbrs : Nat → List Nat) : Nat → List Nat → List Nat → Option (List Nat × List Nat)
  | _, visited, [] => some ([], visited)
  | 0, _, _ :: _ => none
  | fuel + 1, visited, y :: ys =>
    match dfsPost nbrs fuel visited y with
    | none => none
    | some (order₁, visited₁) =>
      match dfsPostList nbrs fuel visited₁ ys with
      | none => none
      | some (order₂, visited₂) => some (order₁ ++ order₂, visited₂)
end

/-- A fuel that provably suffices for `dfsPost` on this graph, whatever the
start node and visited set: the depth of the recursion is bounded by the
number of freshly markable nodes times the largest neighbor list, both of
which the edge count bounds. -/
def RawCallGraph.dfsFuel (g : RawCallGraph) : Nat :=
  (2 * g.edges.length + 1) * (g.edges.length + 2)


/-! ## The error model: every panic site of codegen.rs gets its own value -/

/-- The outcomes that abort emission.  Each constructor corresponds to one
panic or error site in codegen.rs (or a fuel bound of the embedding). -/
inductive CodegenError where
  /-- Line 63-68: the root node is not a `Compute` node (`unreachable!`). -/
  | rootNotCompute
  /-- An invalid `NodeIndex` used to index the graph (petgraph panic). -/
  | invalidNodeIndex
  /-- `hydrated_component` lookup failed (component db panic). -/
  | unknownComponent
  /-- Line 193: `assert_eq!(2, variants.len())` failed. -/
  | nonBinaryMatch
  /-- Line 194: `assert_eq!(current_index, traversal_start_index)` failed. -/
  | matchNotTraversalStart
  /-- Lines 227-238: a `MatchBranching` successor that is not a
  `MatchResult` compute node (`unreachable!`). -/
  | variantNotMatchResult
  /-- Line 265: `ok_arm.unwrap()` failed (no `Ok` child). -/
  | missingOkArm
  /-- Line 266: `err_arm.unwrap()` failed (no `Err` child). -/
  | missingErrArm
  /-- Lines 267-270: a `MatchBranching` node with no incoming edge. -/
  | noIncomingResult
  /-- A lookup `blocks[&index]` found no fragment for the node (HashMap
  indexing panic, e.g. line 271 or inside `codegen_call_block`). -/
  | missingFragment
  /-- Inside `codegen_call_block`: no dependency matches one of the
  callable's input types. -/
  | missingDependency
  /-- Line 358: `get_node_type_inputs` hit a `MatchBranching` dependency
  (`unreachable!`). -/
  | matchBranchingInput
  /-- Line 186: `parameter_bindings[input_type]` found no binding. -/
  | missingInputBinding
  /-- Line 314: `find_terminal_descendant` exhausted the graph
  (`unreachable!`, impossible for a DAG). -/
  | noTerminal
  /-- Fuel exhaustion of the embedding (never happens for the fuel chosen
  by the entry points). -/
  | fuelExhausted
deriving DecidableEq, Repr

/-! ## The helper functions of codegen.rs (lines 303-362) -/

/-- `find_terminal_descendant` (lines 305-315): run a post-order DFS on the
forward graph from `start_index` and return the first emitted node with no
outgoing edges.  Returns `none` when no terminal is found (the source's
`unreachable!`) or on fuel exhaustion. -/
def find_terminal_descendant (g : RawCallGraph) (start_index : Nat) : Option Nat :=
  match dfsPost g.succList g.dfsFuel [] start_index with
  | none => none
  | some (order, _) => order.find? (fun i => (g.succList i).isEmpty)

/-- Does the node index hold a `MatchBranching` node? -/
def RawCallGraph.isMatchBranching (g : RawCallGraph) (i : Nat) : Bool :=
  g.nodes[i]? == some CallGraphNode.matchBranching

/-- `find_match_branching_ancestor` (lines 322-340): post-order DFS on the
reversed graph from `start_index`; return the first emitted node that is not
`start_index`, is not in `ignore_set`, and is a `MatchBranching` node. -/
def find_match_branching_ancestor (g : RawCallGraph) (start_index : Nat)
    (ignore_set : List Nat) : Option Nat :=
  match dfsPost g.predList g.dfsFuel [] start_index with
  | none => none
  | some (order, _) =>
    order.find? (fun a =>
      a != start_index && !(ignore_set.contains a) && g.isMatchBranching a)

/-- Effectful map over a list in the `Except` monad (the embedding's stand-in
for iterator `collect`), written recursively so that it reduces. -/
def exceptMap {α β : Type} (f : α → Except CodegenError β) :
    List α → Except CodegenError (List β)
  | [] => pure []
  | a :: l => do
    let b ← f a
    let bs ← exceptMap f l
    pure (b :: bs)

/-- `get_node_type_inputs` (lines 342-362): the incoming edges of a node,
each mapped to (source index, source output type, edge metadata).  A
`MatchBranching` source is the source's `unreachable!`. -/
def get_node_type_inputs (g : RawCallGraph) (node_index : Nat)
    (component_db : ComponentDb) (computation_db : ComputationDb) :
    Except CodegenError (List (Nat × ResolvedType × CallGraphEdgeMetadata)) :=
  exceptMap (fun e => do
    match g.nodes[e.source]? with
    | none => throw .invalidNodeIndex
    | some (CallGraphNode.compute component_id _) =>
      match component_db.hydrated_component component_id computation_db with
      | none => throw .unknownComponent
      | some component => pure (e.source, component.output_type, e.weight)
    | some (CallGraphNode.inputParameter i) => pure (e.source, i, e.weight)
    | some CallGraphNode.matchBranching => throw .matchBranchingInput)
    (g.incomingEdges node_index)

/-- Fragment lookup, the embedding of `blocks[&index]` / `blocks.get`. -/
def lookupFragment (blocks : List (Nat × Fragment)) (i : Nat) : Option Fragment :=
  (blocks.find? (fun p => p.1 == i)).map (fun p => p.2)

/-- Render one argument of a call according to the edge metadata.
Modelled from the spec: the renderer uses per-edge metadata "to decide
argument form (e.g. by-value vs by-reference)". -/
def renderArg (m : CallGraphEdgeMetadata) (f : Fragment) : Expr :=
  match m with
  | .move => f.toExpr
  | .sharedBorrow => .borrow f.toExpr

/-- `codegen_utils::codegen_call_block` (not in the snapshot).  Modelled from
the spec: emit `<callable>(<args>)` "where `<args>` are the previously-bound
names of this node's incoming neighbors, in the edge order declared by the
callable's signature".  A missing fragment for a dependency is the lookup
panic; an input type with no dependency aborts. -/
def codegen_call_block (dependencies : List (Nat × ResolvedType × CallGraphEdgeMetadata))
    (callable : Callable) (blocks : List (Nat × Fragment)) :
    Except CodegenError Fragment := do
  let args ← exceptMap (fun t => do
    match dependencies.find? (fun d => d.2.1 == t) with
    | none => throw CodegenError.missingDependency
    | some d =>
      match lookupFragment blocks d.1 with
      | none => throw CodegenError.missingFragment
      | some f => pure (renderArg d.2.2 f)) callable.inputs
  pure (Fragment.statement (Stmt.exprS (Expr.call callable.name args)))

/-- The variant tag of a `MatchBranching` successor (lines 227-238): the
node must be a `Compute` node whose component hydrates to
`Transformer(MatchResult)` or `Constructor(MatchResult)`. -/
def variantTypeOf (g : RawCallGraph) (component_db : ComponentDb)
    (computation_db : ComputationDb) (variant_index : Nat) :
    Except CodegenError MatchResultVariant :=
  match g.nodes[variant_index]? with
  | none => throw .invalidNodeIndex
  | some (.compute component_id _) =>
    match component_db.hydrated_component component_id computation_db with
    | none => throw .unknownComponent
    | some (.transformer (.matchResult m _)) => pure m
    | some (.constructor (.matchResult m _)) => pure m
    | some _ => throw .variantNotMatchResult
  | some _ => throw .variantNotMatchResult


/-! ## The emission loop (`_codegen_callable_closure_body`, lines 113-301)

The source runs one `DfsPostOrder` interleaved with per-node processing.
Processing never mutates the DFS (for a `MatchBranching` node the DFS is
cloned, not advanced), so the embedding first computes the full finish order
of the DFS and then folds node processing over it; a `MatchBranching` node
that surfaces anywhere but at the traversal start trips the source's
assertion exactly as in the interleaved run.  When the traversal start is a
`MatchBranching` node it is necessarily the last emitted node and the DFS
stack is empty at that point, so the cloned DFS handed to each match arm is
exactly the final visited set of the traversal. -/

/-- The read-only inputs threaded through the emission. -/
structure CodegenCtx where
  call_graph : RawCallGraph
  parameter_bindings : List (ResolvedType × String)
  package_id2name : List (Nat × String)
  component_db : ComponentDb
  computation_db : ComputationDb

/-- The mutable state of one traversal: the variable name generator, the
insertion-ordered `at_most_once_constructor_blocks`, and the node-to-fragment
map `blocks`. -/
structure EmitState where
  generator : VariableNameGenerator
  at_most_once_constructor_blocks : List (Nat × Stmt)
  blocks : List (Nat × Fragment)

mutual
/-- One invocation of `_codegen_callable_closure_body` (lines 113-301):
choose the traversal seed (lines 125-134), run the post-order DFS loop
(lines 135-283), and assemble the body (lines 284-300). -/
def codegenBody (fuel : Nat) (ctx : CodegenCtx) (generator : VariableNameGenerator)
    (at_most_once : List (Nat × Stmt)) (blocks : List (Nat × Fragment))
    (visited : List Nat) (node_index : Nat) : Except CodegenError (List Stmt) :=
  match fuel with
  | 0 => throw CodegenError.fuelExhausted
  | fuel + 1 => do
    let terminal_index ←
      (find_terminal_descendant ctx.call_graph node_index).elim
        (throw CodegenError.noTerminal) pure
    let traversal_start_index :=
      (find_match_branching_ancestor ctx.call_graph terminal_index visited).getD
        terminal_index
    match dfsPost ctx.call_graph.predList ctx.call_graph.dfsFuel visited
        traversal_start_index with
    | none => throw CodegenError.fuelExhausted
    | some (order, visited') => do
      let st ← processNodes fuel ctx traversal_start_index visited'
        ⟨generator, at_most_once, blocks⟩ order
      let tail ←
        match lookupFragment st.blocks traversal_start_index with
        | none => throw CodegenError.missingFragment
        | some fragment => pure fragment.stmts
      pure (st.at_most_once_constructor_blocks.map (fun p => p.2) ++ tail)
termination_by structural fuel

/-- The `while let Some(current_index) = dfs.next(..)` loop, folded over the
precomputed finish order. -/
def processNodes (fuel : Nat) (ctx : CodegenCtx) (traversal_start_index : Nat)
    (arm_visited : List Nat) (st : EmitState) (order : List Nat) :
    Except CodegenError EmitState :=
  match fuel, order with
  | _, [] => pure st
  | 0, _ :: _ => throw CodegenError.fuelExhausted
  | fuel + 1, current_index :: rest => do
    let st ← processNode fuel ctx traversal_start_index arm_visited st current_index
    processNodes fuel ctx traversal_start_index arm_visited st rest
termination_by structural fuel

/-- The body of the DFS loop (lines 136-282): handle one node. -/
def processNode (fuel : Nat) (ctx : CodegenCtx) (traversal_start_index : Nat)
    (arm_visited : List Nat) (st : EmitState) (current_index : Nat) :
    Except CodegenError EmitState :=
  match fuel with
  | 0 => throw CodegenError.fuelExhausted
  | fuel + 1 =>
  match ctx.call_graph.nodes[current_index]? with
  | none => throw CodegenError.invalidNodeIndex
  | some (CallGraphNode.compute component_id n_allowed_invocations) =>
    -- Lines 138-184.
    match ctx.component_db.hydrated_component component_id ctx.computation_db with
    | none => throw CodegenError.unknownComponent
    | some component =>
      match component.computation with
      | Computation.callable callable => do
        -- Lines 146-177.
        let dependencies ← get_node_type_inputs ctx.call_graph current_index
          ctx.component_db ctx.computation_db
        let block ← codegen_call_block dependencies callable st.blocks
        if current_index == traversal_start_index
            || n_allowed_invocations == NumberOfAllowedInvocations.multiple then
          pure { st with blocks := (current_index, block) :: st.blocks }
        else
          let (parameter_name, generator) := st.generator.generate
          pure { generator := generator,
                 at_most_once_constructor_blocks :=
                   st.at_most_once_constructor_blocks
                     ++ [(current_index, Stmt.letS parameter_name block.toExpr)],
                 blocks := (current_index,
                   Fragment.variableReference parameter_name) :: st.blocks }
      | Computation.matchResult _ _ =>
        -- Lines 179-183: already bound when the parent `MatchBranching`
        -- was handled; do nothing.
        pure st
  | some (CallGraphNode.inputParameter input_type) =>
    -- Lines 185-188.
    match ctx.parameter_bindings.find? (fun p => p.1 == input_type) with
    | none => throw CodegenError.missingInputBinding
    | some p =>
      pure { st with blocks :=
        (current_index, Fragment.variableReference p.2) :: st.blocks }
  | some CallGraphNode.matchBranching => do
    -- Lines 189-281.
    let variants := ctx.call_graph.successors current_index
    if variants.length != 2 then throw CodegenError.nonBinaryMatch
    else if current_index != traversal_start_index then
      throw CodegenError.matchNotTraversalStart
    else do
      let (ok_arm?, err_arm?) ←
        emitVariants fuel ctx arm_visited st none none variants
      let ok_arm ← ok_arm?.elim (throw CodegenError.missingOkArm) pure
      let err_arm ← err_arm?.elim (throw CodegenError.missingErrArm) pure
      let result_node_index ←
        (ctx.call_graph.predecessors current_index).head?.elim
          (throw CodegenError.noIncomingResult) pure
      let result_binding ←
        (lookupFragment st.blocks result_node_index).elim
          (throw CodegenError.missingFragment) pure
      let block := Fragment.block
        [Stmt.exprS (Expr.matchE result_binding.toExpr [ok_arm, err_arm])]
      pure { st with blocks := (current_index, block) :: st.blocks }
termination_by structural fuel

/-- The `for variant_index in variants` loop (lines 197-262): generate each
arm from a clone of the pre-branch generator, fragment map and DFS state,
then slot it by its variant tag (`Ok` or `Err`). -/
def emitVariants (fuel : Nat) (ctx : CodegenCtx) (arm_visited : List Nat)
    (st : EmitState)
    (ok_arm err_arm : Option (MatchPat × List Stmt)) (variants : List Nat) :
    Except CodegenError
      (Option (MatchPat × List Stmt) × Option (MatchPat × List Stmt)) :=
  match fuel, variants with
  | _, [] => pure (ok_arm, err_arm)
  | 0, _ :: _ => throw CodegenError.fuelExhausted
  | fuel + 1, variant_index :: rest => do
    -- Lines 198-208: fresh `at_most_once` map, cloned generator, cloned
    -- fragment map extended with the match binding for this variant.
    let (match_binding_parameter_name, variant_name_generator) :=
      st.generator.generate
    let variant_blocks :=
      (variant_index, Fragment.variableReference match_binding_parameter_name)
        :: st.blocks
    -- Lines 209-226: the load-bearing clone of the DFS state, then the
    -- recursive call.
    let match_arm_body ← codegenBody fuel ctx variant_name_generator []
      variant_blocks arm_visited variant_index
    let variant_type ← variantTypeOf ctx.call_graph ctx.component_db
      ctx.computation_db variant_index
    -- Lines 239-261.
    let pat :=
      match variant_type with
      | MatchResultVariant.ok => MatchPat.okPat match_binding_parameter_name
      | MatchResultVariant.err => MatchPat.errPat match_binding_parameter_name
    let match_arm := (pat, match_arm_body)
    match variant_type with
    | MatchResultVariant.ok =>
      emitVariants fuel ctx arm_visited st (some match_arm) err_arm rest
    | MatchResultVariant.err =>
      emitVariants fuel ctx arm_visited st ok_arm (some match_arm) rest
termination_by structural fuel
end

/-- A fuel bound that provably suffices for the emission recursion on any
input: every match-arm nesting level permanently visits at least one
previously-unvisited node drawn from the pool of edge endpoints plus the
root, and the per-level frame count is linear in that pool. -/
def RawCallGraph.armFuel (g : RawCallGraph) : Nat :=
  (4 * g.edges.length + 12) * (2 * g.edges.length + 2)

/-- `codegen_callable_closure_body` (lines 87-111): fresh traversal state,
fresh DFS, then the worker. -/
def codegen_callable_closure_body (root_callable_node_index : Nat)
    (call_graph : RawCallGraph) (parameter_bindings : List (ResolvedType × String))
    (package_id2name : List (Nat × String)) (component_db : ComponentDb)
    (computation_db : ComputationDb) (variable_name_generator : VariableNameGenerator) :
    Except CodegenError (List Stmt) :=
  codegenBody call_graph.armFuel
    ⟨call_graph, parameter_bindings, package_id2name, component_db, computation_db⟩
    variable_name_generator [] [] [] root_callable_node_index

/-- Lines 34-42: the fresh generator and the parameter bindings — one
generated name per required input type, in order. -/
def closureParameterBindings (cg : CallGraph) :
    List (ResolvedType × String) × VariableNameGenerator :=
  cg.required_input_types.foldl
    (fun acc t =>
      let (parameter_name, generator) := acc.2.generate
      (acc.1 ++ [(t, parameter_name)], generator))
    (([] : List (ResolvedType × String)), (⟨0⟩ : VariableNameGenerator))

/-- `codegen_callable_closure` (lines 27-82): bind one parameter name per
required input type, generate the body, then build
`pub async fn handler(<inputs>) -> <output> { <body> }`.  The body is
generated first (line 47); the root-node match (lines 63-69) happens after,
exactly as in the source. -/
def codegen_callable_closure (cg : CallGraph)
    (package_id2name : List (Nat × String)) (component_db : ComponentDb)
    (computation_db : ComputationDb) : Except CodegenError ItemFn := do
  let parameter_bindings := (closureParameterBindings cg).1
  let body ← codegen_callable_closure_body cg.root_node_index cg.call_graph
    parameter_bindings package_id2name component_db computation_db
    (closureParameterBindings cg).2
  let component_id ←
    match cg.call_graph.nodes[cg.root_node_index]? with
    | some (CallGraphNode.compute component_id _) => pure component_id
    | some _ => throw CodegenError.rootNotCompute
    | none => throw CodegenError.invalidNodeIndex
  let component ←
    (component_db.hydrated_component component_id computation_db).elim
      (throw CodegenError.unknownComponent) pure
  let output_type := component.output_type.syn_type package_id2name
  let inputs := parameter_bindings.map
    (fun p => (p.2, p.1.syn_type package_id2name))
  pure { name := "handler", is_async := true, inputs := inputs,
         output := output_type, body := body }


/-! ## Concrete example graphs

`fallibleChain*`: a single fallible constructor `c() -> Result<A, E>` with
error handler `h(E) -> Response` feeding a handler `f(A) -> Response`
(the boundary example of §8 of the spec).

`transientTwice*`: a `Transient` (hence `Multiple`) constructor `t()`
consumed twice by the handler `f(T, T)`.

`crossArm*`: a fallible constructor whose `Ok` and `Err` projections are both
consumed by the same handler — the §3 shape invariants all hold, yet the two
match arms share a consumer. -/

def tResultAE : ResolvedType := ⟨0, "Result"⟩
def tA : ResolvedType := ⟨0, "A"⟩
def tE : ResolvedType := ⟨0, "E"⟩
def tResponse : ResolvedType := ⟨0, "Response"⟩
def tT : ResolvedType := ⟨0, "T"⟩

def fallibleChainComputationDb : ComputationDb := ⟨[
  Computation.callable ⟨"c", [], tResultAE⟩,
  Computation.matchResult MatchResultVariant.ok tA,
  Computation.matchResult MatchResultVariant.err tE,
  Computation.callable ⟨"f", [tA], tResponse⟩,
  Computation.callable ⟨"h", [tE], tResponse⟩]⟩

def fallibleChainComponentDb : ComponentDb := ⟨[
  (ComponentKind.constructor, 0),
  (ComponentKind.transformer, 1),
  (ComponentKind.transformer, 2),
  (ComponentKind.requestHandler, 3),
  (ComponentKind.errorHandler, 4)]⟩

/-- Node 0: `c`; node 1: the `MatchBranching`; node 2: the `Ok` projection;
node 3: the `Err` projection; node 4: the handler `f` (the root); node 5:
the error handler `h`. -/
def fallibleChainGraph : RawCallGraph := ⟨
  [CallGraphNode.compute 0 NumberOfAllowedInvocations.single,
   CallGraphNode.matchBranching,
   CallGraphNode.compute 1 NumberOfAllowedInvocations.single,
   CallGraphNode.compute 2 NumberOfAllowedInvocations.single,
   CallGraphNode.compute 3 NumberOfAllowedInvocations.single,
   CallGraphNode.compute 4 NumberOfAllowedInvocations.single],
  [⟨0, 1, CallGraphEdgeMetadata.move⟩,
   ⟨1, 2, CallGraphEdgeMetadata.move⟩,
   ⟨1, 3, CallGraphEdgeMetadata.move⟩,
   ⟨2, 4, CallGraphEdgeMetadata.move⟩,
   ⟨3, 5, CallGraphEdgeMetadata.move⟩]⟩

def fallibleChainCallGraph : CallGraph := ⟨fallibleChainGraph, 4⟩

/-- The body the generator actually produces for the fallible chain:
both match arms bind the same name `v1`, because each arm's name generator
is an independent clone of the same pre-branch generator. -/
def fallibleChainActualFn : ItemFn :=
  { name := "handler", is_async := true, inputs := [], output := "Response",
    body := [Stmt.letS "v0" (Expr.call "c" []),
             Stmt.exprS (Expr.matchE (Expr.var "v0")
               [(MatchPat.okPat "v1", [Stmt.exprS (Expr.call "f" [Expr.var "v1"])]),
                (MatchPat.errPat "v1", [Stmt.exprS (Expr.call "h" [Expr.var "v1"])])])] }

/-- The body claimed in the spec's boundary example: the `Err` arm would
bind a fresh, distinct name `v2`. -/
def fallibleChainClaimedFn : ItemFn :=
  { name := "handler", is_async := true, inputs := [], output := "Response",
    body := [Stmt.letS "v0" (Expr.call "c" []),
             Stmt.exprS (Expr.matchE (Expr.var "v0")
               [(MatchPat.okPat "v1", [Stmt.exprS (Expr.call "f" [Expr.var "v1"])]),
                (MatchPat.errPat "v2", [Stmt.exprS (Expr.call "h" [Expr.var "v2"])])])] }

def transientTwiceComputationDb : ComputationDb := ⟨[
  Computation.callable ⟨"t", [], tT⟩,
  Computation.callable ⟨"f", [tT, tT], tResponse⟩]⟩

def transientTwiceComponentDb : ComponentDb := ⟨[
  (ComponentKind.constructor, 0),
  (ComponentKind.requestHandler, 1)]⟩

def transientTwiceGraph : RawCallGraph := ⟨
  [CallGraphNode.compute 0 NumberOfAllowedInvocations.multiple,
   CallGraphNode.compute 1 NumberOfAllowedInvocations.single],
  [⟨0, 1, CallGraphEdgeMetadata.move⟩,
   ⟨0, 1, CallGraphEdgeMetadata.move⟩]⟩

def crossArmComputationDb : ComputationDb := ⟨[
  Computation.callable ⟨"c", [], tResultAE⟩,
  Computation.matchResult MatchResultVariant.ok tA,
  Computation.matchResult MatchResultVariant.err tE,
  Computation.callable ⟨"z", [tA, tE], tResponse⟩]⟩

def crossArmComponentDb : ComponentDb := ⟨[
  (ComponentKind.constructor, 0),
  (ComponentKind.transformer, 1),
  (ComponentKind.transformer, 2),
  (ComponentKind.requestHandler, 3)]⟩

/-- Node 0: fallible `c`; node 1: `MatchBranching`; node 2: `Ok` projection;
node 3: `Err` projection; node 4: handler `z(A, E)` consuming both. -/
def crossArmGraph : RawCallGraph := ⟨
  [CallGraphNode.compute 0 NumberOfAllowedInvocations.single,
   CallGraphNode.matchBranching,
   CallGraphNode.compute 1 NumberOfAllowedInvocations.single,
   CallGraphNode.compute 2 NumberOfAllowedInvocations.single,
   CallGraphNode.compute 3 NumberOfAllowedInvocations.single],
  [⟨0, 1, CallGraphEdgeMetadata.move⟩,
   ⟨1, 2, CallGraphEdgeMetadata.move⟩,
   ⟨1, 3, CallGraphEdgeMetadata.move⟩,
   ⟨2, 4, CallGraphEdgeMetadata.move⟩,
   ⟨3, 4, CallGraphEdgeMetadata.move⟩]⟩

/-! ## Claim C1: the generated body of the fallible chain -/

/-- Extract the binder of the `Err` arm from a generated function. -/
def errArmBinder : Except CodegenError ItemFn → Option String
  | .ok f =>
    match f.body with
    | [_, Stmt.exprS (Expr.matchE _ [_, (MatchPat.errPat n, _)])] => some n
    | _ => none
  | _ => none

/-- C1, counterexample: on the single-fallible-constructor graph the code
generator does not emit the body claimed by the spec's boundary example —
the `Err` arm does not bind the distinct name `v2`. -/
theorem fallibleChain_not_claimed_output :
    codegen_callable_closure fallibleChainCallGraph [] fallibleChainComponentDb
      fallibleChainComputationDb ≠ Except.ok fallibleChainClaimedFn :=
  fun h => absurd (congrArg errArmBinder h) (by decide)

/-- C1, amended: the generated body is
`let v0 = c(); match v0 { Ok(v1) => { f(v1) } Err(v1) => { h(v1) } }`.
The constructor is bound to `v0` before the match and the `Ok` arm binds
`v1`, but the `Err` arm binds `v1` as well: each arm clones the pre-branch
name generator, so both arms draw the same next name (the arms are separate
scopes, so the generated code is still well-formed). -/
theorem fallibleChain_generated_body :
    codegen_callable_closure fallibleChainCallGraph [] fallibleChainComponentDb
      fallibleChainComputationDb = Except.ok fallibleChainActualFn := rfl

/-! ## Claim C8: determinism -/

/-- C8: code generation is deterministic — two runs on equal call graphs,
package maps, component databases and computation databases produce equal
output.  The embedding is a pure function of exactly these four inputs, so
equal inputs force identical token streams, variable names included. -/
theorem codegen_callable_closure_deterministic
    (cg₁ cg₂ : CallGraph) (m₁ m₂ : List (Nat × String))
    (db₁ db₂ : ComponentDb) (cdb₁ cdb₂ : ComputationDb)
    (hg : cg₁ = cg₂) (hm : m₁ = m₂) (hdb : db₁ = db₂) (hcdb : cdb₁ = cdb₂) :
    codegen_callable_closure cg₁ m₁ db₁ cdb₁ =
      codegen_callable_closure cg₂ m₂ db₂ cdb₂ := by
  subst hg
  subst hm
  subst hdb
  subst hcdb
  rfl

/-- Witness for C8 at the fallible-chain graph. -/
theorem codegen_callable_closure_deterministic_witness :
    codegen_callable_closure fallibleChainCallGraph [] fallibleChainComponentDb
        fallibleChainComputationDb =
      codegen_callable_closure fallibleChainCallGraph [] fallibleChainComponentDb
        fallibleChainComputationDb :=
  codegen_callable_closure_deterministic _ _ _ _ _ _ _ _ rfl rfl rfl rfl


/-! ## Monadic plumbing lemmas for `Except CodegenError` -/

@[simp] theorem throw_eq_error {α : Type} (e : CodegenError) :
    (throw e : Except CodegenError α) = Except.error e := rfl

@[simp] theorem pure_eq_ok {α : Type} (a : α) :
    (pure a : Except CodegenError α) = Except.ok a := rfl

@[simp] theorem error_bind {α β : Type} (e : CodegenError)
    (f : α → Except CodegenError β) :
    (Except.error e >>= f) = Except.error e := rfl

@[simp] theorem ok_bind {α β : Type} (a : α) (f : α → Except CodegenError β) :
    (Except.ok a >>= f) = f a := rfl

theorem bind_ne_error {α β : Type} {x : Except CodegenError α}
    {f : α → Except CodegenError β} {bad : CodegenError}
    (h1 : x ≠ Except.error bad) (h2 : ∀ a, f a ≠ Except.error bad) :
    (x >>= f) ≠ Except.error bad := by
  cases x with
  | error e => intro h; exact h1 (by simpa using h)
  | ok a => intro h; exact h2 a (by simpa using h)

theorem exceptMap_ne_error {α β : Type} {f : α → Except CodegenError β}
    {bad : CodegenError} (h : ∀ a, f a ≠ Except.error bad) :
    ∀ l : List α, exceptMap f l ≠ Except.error bad := by
  intro l
  induction l with
  | nil => simp [exceptMap]
  | cons a l ih =>
    simp only [exceptMap]
    refine bind_ne_error (h a) ?_
    intro b
    refine bind_ne_error ih ?_
    intro bs
    simp

/-! ## Claim C9: the only `rootNotCompute` panic site is the root match

No function of the body-generation recursion ever produces the
`rootNotCompute` panic; it can only arise from the root-node match of
`codegen_callable_closure` (lines 63-69). -/

theorem get_node_type_inputs_ne_rootNotCompute (g : RawCallGraph) (i : Nat)
    (db : ComponentDb) (cdb : ComputationDb) :
    get_node_type_inputs g i db cdb ≠ Except.error CodegenError.rootNotCompute := by
  unfold get_node_type_inputs
  refine exceptMap_ne_error ?_ _
  intro e
  split <;> try simp
  split <;> simp

theorem codegen_call_block_ne_rootNotCompute
    (deps : List (Nat × ResolvedType × CallGraphEdgeMetadata)) (c : Callable)
    (blocks : List (Nat × Fragment)) :
    codegen_call_block deps c blocks ≠ Except.error CodegenError.rootNotCompute := by
  unfold codegen_call_block
  refine bind_ne_error (exceptMap_ne_error ?_ _) ?_
  · intro t
    split <;> try simp
    split <;> simp
  · intro args
    simp

theorem variantTypeOf_ne_rootNotCompute (g : RawCallGraph) (db : ComponentDb)
    (cdb : ComputationDb) (v : Nat) :
    variantTypeOf g db cdb v ≠ Except.error CodegenError.rootNotCompute := by
  unfold variantTypeOf
  split <;> try simp
  split <;> simp

theorem emit_ne_rootNotCompute (fuel : Nat) :
    (∀ ctx gen amo blocks visited idx,
        codegenBody fuel ctx gen amo blocks visited idx ≠
          Except.error CodegenError.rootNotCompute) ∧
    (∀ ctx ts av st order,
        processNodes fuel ctx ts av st order ≠
          Except.error CodegenError.rootNotCompute) ∧
    (∀ ctx ts av st idx,
        processNode fuel ctx ts av st idx ≠
          Except.error CodegenError.rootNotCompute) ∧
    (∀ ctx av st oa ea vs,
        emitVariants fuel ctx av st oa ea vs ≠
          Except.error CodegenError.rootNotCompute) := by
  induction fuel with
  | zero =>
    refine ⟨?_, ?_, ?_, ?_⟩
    · intro ctx gen amo blocks visited idx
      simp [codegenBody]
    · intro ctx ts av st order
      cases order <;> simp [processNodes]
    · intro ctx ts av st idx
      simp [processNode]
    · intro ctx av st oa ea vs
      cases vs <;> simp [emitVariants]
  | succ fuel ih =>
    obtain ⟨ihB, ihNs, ihN, ihV⟩ := ih
    refine ⟨?_, ?_, ?_, ?_⟩
    · intro ctx gen amo blocks visited idx
      simp only [codegenBody]
      cases hT : find_terminal_descendant ctx.call_graph idx with
      | none => simp [Option.elim]
      | some t =>
        simp only [Option.elim, ok_bind, pure_eq_ok]
        split
        · simp
        · refine bind_ne_error (ihNs _ _ _ _ _) ?_
          intro st
          split <;> simp
    · intro ctx ts av st order
      cases order with
      | nil => simp [processNodes]
      | cons i rest =>
        simp only [processNodes]
        exact bind_ne_error (ihN _ _ _ _ _) (fun st => ihNs _ _ _ _ _)
    · intro ctx ts av st idx
      simp only [processNode]
      split <;> try simp
      case _ cid nall heq =>
        split <;> try simp
        case _ component heq2 =>
          split
          · refine bind_ne_error (get_node_type_inputs_ne_rootNotCompute _ _ _ _) ?_
            intro deps
            refine bind_ne_error (codegen_call_block_ne_rootNotCompute _ _ _) ?_
            intro block
            split <;> simp
          · simp
      case _ t heq =>
        split <;> simp
      case _ heq =>
        split <;> try simp
        split <;> try simp
        refine bind_ne_error (ihV _ _ _ _ _ _) ?_
        intro arms
        obtain ⟨oa, ea⟩ := arms
        cases oa with
        | none => simp [Option.elim]
        | some ok_arm =>
          cases ea with
          | none => simp [Option.elim]
          | some err_arm =>
            simp only [Option.elim, ok_bind]
            split <;> try simp
            split <;> simp
    · intro ctx av st oa ea vs
      cases vs with
      | nil => simp [emitVariants]
      | cons v rest =>
        simp only [emitVariants]
        refine bind_ne_error (ihB _ _ _ _ _ _) ?_
        intro body
        refine bind_ne_error (variantTypeOf_ne_rootNotCompute _ _ _ _) ?_
        intro vt
        cases vt <;> exact ihV _ _ _ _ _ _


/-- C9: `codegen_callable_closure` implicitly requires the root node index to
designate a `Compute` node.  If the root is an `InputParameter` or a
`MatchBranching` node the function can only abort (with the `unreachable!`
panic of lines 63-69, or an earlier panic during body generation) — it never
returns a generated function.  Conversely, when the root is a `Compute` node
the `unreachable!` branch is dead: the `rootNotCompute` panic cannot be the
outcome. -/
theorem codegen_callable_closure_root_precondition
    (cg : CallGraph) (package_id2name : List (Nat × String))
    (component_db : ComponentDb) (computation_db : ComputationDb) :
    (((∃ t, cg.call_graph.nodes[cg.root_node_index]? =
          some (CallGraphNode.inputParameter t)) ∨
        cg.call_graph.nodes[cg.root_node_index]? =
          some CallGraphNode.matchBranching) →
      ∀ fn, codegen_callable_closure cg package_id2name component_db
          computation_db ≠ Except.ok fn) ∧
    ((∃ cid n, cg.call_graph.nodes[cg.root_node_index]? =
        some (CallGraphNode.compute cid n)) →
      codegen_callable_closure cg package_id2name component_db computation_db ≠
        Except.error CodegenError.rootNotCompute) := by
  constructor
  · intro hroot fn
    unfold codegen_callable_closure
    cases hB : codegen_callable_closure_body cg.root_node_index cg.call_graph
        (closureParameterBindings cg).1 package_id2name component_db
        computation_db (closureParameterBindings cg).2 with
    | error e => simp [hB]
    | ok body =>
      simp only [hB, ok_bind]
      rcases hroot with ⟨t, ht⟩ | ht <;> simp [ht]
  · intro hroot
    obtain ⟨cid, n, hroot⟩ := hroot
    unfold codegen_callable_closure
    cases hB : codegen_callable_closure_body cg.root_node_index cg.call_graph
        (closureParameterBindings cg).1 package_id2name component_db
        computation_db (closureParameterBindings cg).2 with
    | error e =>
      have hne : codegen_callable_closure_body cg.root_node_index cg.call_graph
          (closureParameterBindings cg).1 package_id2name component_db
          computation_db (closureParameterBindings cg).2 ≠
          Except.error CodegenError.rootNotCompute :=
        (emit_ne_rootNotCompute cg.call_graph.armFuel).1 _ _ _ _ _ _
      rw [hB] at hne
      have he : e ≠ CodegenError.rootNotCompute := by
        intro h
        exact hne (by rw [h])
      simp only [hB, error_bind]
      intro hc
      injection hc with h
      exact he h
    | ok body =>
      simp only [hB, ok_bind, hroot, pure_eq_ok]
      cases hC : component_db.hydrated_component cid computation_db with
      | none => simp [hC, Option.elim]
      | some comp => simp [hC, Option.elim]

/-- Witness for C9 on the fallible-chain graph, whose root is the `Compute`
node of the handler `f`. -/
theorem codegen_callable_closure_root_precondition_witness :
    codegen_callable_closure fallibleChainCallGraph [] fallibleChainComponentDb
        fallibleChainComputationDb ≠
      Except.error CodegenError.rootNotCompute :=
  (codegen_callable_closure_root_precondition fallibleChainCallGraph []
    fallibleChainComponentDb fallibleChainComputationDb).2 ⟨3, NumberOfAllowedInvocations.single, rfl⟩


/-! ## Inversion helpers for `Except` chains -/

theorem bind_eq_ok {α β : Type} {x : Except CodegenError α}
    {f : α → Except CodegenError β} {b : β} (h : x >>= f = Except.ok b) :
    ∃ a, x = Except.ok a ∧ f a = Except.ok b := by
  cases x with
  | error e => simp at h
  | ok a => exact ⟨a, rfl, by simpa using h⟩

theorem elim_eq_ok {α : Type} {opt : Option α} {e : CodegenError} {a : α}
    (h : (Option.elim opt (throw e) pure : Except CodegenError α) = Except.ok a) :
    opt = some a := by
  cases opt with
  | none => simp [Option.elim] at h
  | some b => simpa [Option.elim] using h

/-! ## Claim C10: match-arm emission is frame-preserving for the enclosing
let-binding list

Each match arm is generated against a fresh, empty
`at_most_once_constructor_blocks` map (line 198), so handling a
`MatchBranching` node leaves the enclosing traversal's let-binding list
untouched: every let-binding generated while emitting an arm lands inside
that arm's block, never before the enclosing match expression. -/

/-- C10: processing a `MatchBranching` node never changes the enclosing
traversal's `at_most_once_constructor_blocks` list. -/
theorem processNode_matchBranching_frame
    (fuel : Nat) (ctx : CodegenCtx) (ts : Nat) (av : List Nat)
    (st st' : EmitState) (idx : Nat)
    (hnode : ctx.call_graph.nodes[idx]? = some CallGraphNode.matchBranching)
    (h : processNode fuel ctx ts av st idx = Except.ok st') :
    st'.at_most_once_constructor_blocks = st.at_most_once_constructor_blocks := by
  cases fuel with
  | zero => simp [processNode] at h
  | succ fuel =>
    simp only [processNode, hnode] at h
    split at h
    · simp at h
    · split at h
      · simp at h
      · obtain ⟨arms, hV, h⟩ := bind_eq_ok h
        obtain ⟨oa, ea⟩ := arms
        obtain ⟨ok_arm, hoa, h⟩ := bind_eq_ok h
        obtain ⟨err_arm, hea, h⟩ := bind_eq_ok h
        obtain ⟨rn, hrn, h⟩ := bind_eq_ok h
        obtain ⟨rb, hrb, h⟩ := bind_eq_ok h
        simp only [pure_eq_ok, Except.ok.injEq] at h
        subst h
        rfl

/-- The context of the fallible-chain example. -/
def fallibleChainCtx : CodegenCtx :=
  ⟨fallibleChainGraph, [], [], fallibleChainComponentDb, fallibleChainComputationDb⟩

/-- The traversal state of the fallible-chain run just before its
`MatchBranching` node is processed: `c` has been bound to `v0`. -/
def fallibleChainMidState : EmitState :=
  ⟨⟨1⟩, [(0, Stmt.letS "v0" (Expr.call "c" []))],
    [(0, Fragment.variableReference "v0")]⟩

/-- Witness for C10: processing the fallible chain's `MatchBranching` node
succeeds and leaves the enclosing let-binding list unchanged. -/
theorem processNode_matchBranching_frame_witness :
    ∃ st', processNode fallibleChainGraph.armFuel fallibleChainCtx 1 [1, 0]
        fallibleChainMidState 1 = Except.ok st' ∧
      st'.at_most_once_constructor_blocks =
        fallibleChainMidState.at_most_once_constructor_blocks :=
  ⟨⟨⟨1⟩, [(0, Stmt.letS "v0" (Expr.call "c" []))],
    [(1, Fragment.block [Stmt.exprS (Expr.matchE (Expr.var "v0")
        [(MatchPat.okPat "v1", [Stmt.exprS (Expr.call "f" [Expr.var "v1"])]),
         (MatchPat.errPat "v1", [Stmt.exprS (Expr.call "h" [Expr.var "v1"])])])]),
     (0, Fragment.variableReference "v0")]⟩,
   rfl,
   processNode_matchBranching_frame fallibleChainGraph.armFuel
     fallibleChainCtx 1 [1, 0] fallibleChainMidState _ 1 rfl rfl⟩


/-! ## Claim C2: the generated signature -/

theorem mem_dedupKeepFirst_foldl (l : List ResolvedType) :
    ∀ (acc : List ResolvedType) (t : ResolvedType),
      t ∈ l.foldl dedupKeepFirst acc ↔ t ∈ acc ∨ t ∈ l := by
  induction l with
  | nil => intro acc t; simp
  | cons a l ih =>
    intro acc t
    rw [List.foldl_cons, ih]
    unfold dedupKeepFirst
    by_cases ha : a ∈ acc
    · simp only [if_pos ha, List.mem_cons]
      constructor
      · rintro (h | h)
        · exact Or.inl h
        · exact Or.inr (Or.inr h)
      · rintro (h | h | h)
        · exact Or.inl h
        · exact Or.inl (h ▸ ha)
        · exact Or.inr h
    · simp only [if_neg ha, List.mem_append, List.mem_singleton, List.mem_cons]
      tauto

theorem nodup_dedupKeepFirst_foldl (l : List ResolvedType) :
    ∀ (acc : List ResolvedType), acc.Nodup → (l.foldl dedupKeepFirst acc).Nodup := by
  induction l with
  | nil => intro acc h; simpa using h
  | cons a l ih =>
    intro acc hacc
    rw [List.foldl_cons]
    refine ih _ ?_
    unfold dedupKeepFirst
    by_cases ha : a ∈ acc
    · simpa [if_pos ha] using hacc
    · simp [if_neg ha, List.nodup_append, hacc, ha]

/-- The required-input types of a call graph never repeat. -/
theorem required_input_types_nodup (cg : CallGraph) :
    cg.required_input_types.Nodup :=
  nodup_dedupKeepFirst_foldl _ _ List.nodup_nil

/-- A type is a required input exactly when some `InputParameter` node
carries it. -/
theorem mem_required_input_types (cg : CallGraph) (t : ResolvedType) :
    t ∈ cg.required_input_types ↔
      CallGraphNode.inputParameter t ∈ cg.call_graph.nodes := by
  unfold CallGraph.required_input_types
  rw [mem_dedupKeepFirst_foldl]
  simp only [List.mem_filterMap, List.not_mem_nil, false_or]
  constructor
  · rintro ⟨n, hn, hsome⟩
    cases n <;> simp_all
  · intro h
    exact ⟨CallGraphNode.inputParameter t, h, rfl⟩

theorem closureParameterBindings_fst_aux (l : List ResolvedType) :
    ∀ (acc : List (ResolvedType × String)) (gen : VariableNameGenerator),
      (l.foldl
        (fun acc t =>
          let p := acc.2.generate
          (acc.1 ++ [(t, p.1)], p.2)) (acc, gen)).1.map (fun p => p.1) =
        acc.map (fun p => p.1) ++ l := by
  induction l with
  | nil => intro acc gen; simp
  | cons a l ih =>
    intro acc gen
    rw [List.foldl_cons]
    simpa using ih (acc ++ [(a, gen.generate.1)]) gen.generate.2

/-- The parameter bindings pair up exactly the required-input types, in
order. -/
theorem closureParameterBindings_fst (cg : CallGraph) :
    (closureParameterBindings cg).1.map (fun p => p.1) =
      cg.required_input_types := by
  unfold closureParameterBindings
  simpa using closureParameterBindings_fst_aux cg.required_input_types [] ⟨0⟩

/-- C2: every successfully generated function has the signature
`async fn handler(p₁ : T₁, …, pₙ : Tₙ) -> OutputType`: the parameter types
are exactly the graph's required-input types (the `InputParameter` node
types, deduplicated, in deterministic node order), one parameter each, and
the output type is the declared output of the root component. -/
theorem codegen_callable_closure_signature
    (cg : CallGraph) (package_id2name : List (Nat × String))
    (component_db : ComponentDb) (computation_db : ComputationDb) (fn : ItemFn)
    (h : codegen_callable_closure cg package_id2name component_db computation_db =
      Except.ok fn) :
    fn.name = "handler" ∧ fn.is_async = true ∧
    fn.inputs = (closureParameterBindings cg).1.map
      (fun p => (p.2, p.1.syn_type package_id2name)) ∧
    fn.inputs.map (fun p => p.2) =
      cg.required_input_types.map (fun t => t.syn_type package_id2name) ∧
    cg.required_input_types.Nodup ∧
    (∀ t, t ∈ cg.required_input_types ↔
      CallGraphNode.inputParameter t ∈ cg.call_graph.nodes) ∧
    (∃ cid n component,
      cg.call_graph.nodes[cg.root_node_index]? =
        some (CallGraphNode.compute cid n) ∧
      component_db.hydrated_component cid computation_db = some component ∧
      fn.output = component.output_type.syn_type package_id2name) := by
  unfold codegen_callable_closure at h
  obtain ⟨body, hbody, h⟩ := bind_eq_ok h
  cases hroot : cg.call_graph.nodes[cg.root_node_index]? with
  | none => rw [hroot] at h; simp at h
  | some node =>
  cases node with
  | inputParameter t => rw [hroot] at h; simp at h
  | matchBranching => rw [hroot] at h; simp at h
  | compute cid n =>
  rw [hroot] at h
  simp only [pure_eq_ok, ok_bind] at h
  obtain ⟨component, hcomp, h⟩ := bind_eq_ok h
  have hfn : fn = ItemFn.mk "handler" true
      ((closureParameterBindings cg).1.map
        (fun p => (p.2, p.1.syn_type package_id2name)))
      (component.output_type.syn_type package_id2name) body := by
    simpa using h.symm
  have hcomp' := elim_eq_ok hcomp
  refine ⟨by rw [hfn], by rw [hfn], by rw [hfn], ?_,
    required_input_types_nodup cg, mem_required_input_types cg,
    cid, n, component, rfl, hcomp', by rw [hfn]⟩
  rw [hfn]
  have hfst := closureParameterBindings_fst cg
  calc ((closureParameterBindings cg).1.map
          (fun p => (p.2, p.1.syn_type package_id2name))).map (fun p => p.2)
      = (closureParameterBindings cg).1.map
          (fun p => p.1.syn_type package_id2name) := by
        simp [List.map_map]
    _ = ((closureParameterBindings cg).1.map (fun p => p.1)).map
          (fun t => t.syn_type package_id2name) := by
        simp [List.map_map]
    _ = cg.required_input_types.map (fun t => t.syn_type package_id2name) := by
        rw [hfst]

/-- A handler consuming one external input parameter. -/
def inputParamComputationDb : ComputationDb :=
  ⟨[Computation.callable ⟨"f", [tT], tResponse⟩]⟩

def inputParamComponentDb : ComponentDb :=
  ⟨[(ComponentKind.requestHandler, 0)]⟩

def inputParamCallGraph : CallGraph :=
  ⟨⟨[CallGraphNode.inputParameter tT,
     CallGraphNode.compute 0 NumberOfAllowedInvocations.single],
    [⟨0, 1, CallGraphEdgeMetadata.move⟩]⟩, 1⟩

def inputParamFn : ItemFn :=
  ⟨"handler", true, [("v0", "app::T")], "app::Response",
   [Stmt.exprS (Expr.call "f" [Expr.var "v0"])]⟩

/-- Witness for C2 on the one-input-parameter graph. -/
theorem codegen_callable_closure_signature_witness :
    inputParamFn.name = "handler" ∧ inputParamFn.is_async = true ∧
    inputParamFn.inputs = (closureParameterBindings inputParamCallGraph).1.map
      (fun p => (p.2, p.1.syn_type [(0, "app")])) ∧
    inputParamFn.inputs.map (fun p => p.2) =
      inputParamCallGraph.required_input_types.map
        (fun t => t.syn_type [(0, "app")]) ∧
    inputParamCallGraph.required_input_types.Nodup ∧
    (∀ t, t ∈ inputParamCallGraph.required_input_types ↔
      CallGraphNode.inputParameter t ∈ inputParamCallGraph.call_graph.nodes) ∧
    (∃ cid n component,
      inputParamCallGraph.call_graph.nodes[inputParamCallGraph.root_node_index]? =
        some (CallGraphNode.compute cid n) ∧
      inputParamComponentDb.hydrated_component cid inputParamComputationDb =
        some component ∧
      inputParamFn.output = component.output_type.syn_type [(0, "app")]) :=
  codegen_callable_closure_signature inputParamCallGraph [(0, "app")]
    inputParamComponentDb inputParamComputationDb inputParamFn rfl


/-! ## Claim C4: the variable-binding discipline

A `Compute(Callable)` node is bound to a `let` variable exactly when its
invocation budget is `Single` and it is not the traversal start (lines
159-177).  The number of its consumers plays no role: a `Multiple` node is
inlined at every consumer even when consumed twice. -/

/-- Does the emission loop bind this node to a variable?  This is the code's
own criterion (lines 161-164, negated): a `Compute` node holding a callable,
with a `Single` budget, that is not the traversal start. -/
def bindsToVariable (ctx : CodegenCtx) (traversal_start_index i : Nat) : Bool :=
  match ctx.call_graph.nodes[i]? with
  | some (CallGraphNode.compute component_id n) =>
    (match ctx.component_db.hydrated_component component_id ctx.computation_db with
     | some component =>
       (match component.computation with
        | Computation.callable _ =>
          !(i == traversal_start_index) &&
            !(n == NumberOfAllowedInvocations.multiple)
        | Computation.matchResult _ _ => false)
     | none => false)
  | _ => false

/-- Processing one node appends a let-binding for it exactly when
`bindsToVariable` holds, and touches the binding list in no other way. -/
theorem processNode_amo_keys (fuel : Nat) (ctx : CodegenCtx) (ts : Nat)
    (av : List Nat) (st st' : EmitState) (i : Nat)
    (h : processNode fuel ctx ts av st i = Except.ok st') :
    st'.at_most_once_constructor_blocks.map (fun p => p.1) =
      st.at_most_once_constructor_blocks.map (fun p => p.1) ++
        (if bindsToVariable ctx ts i then [i] else []) := by
  cases fuel with
  | zero => simp [processNode] at h
  | succ fuel =>
    unfold bindsToVariable
    cases hN : ctx.call_graph.nodes[i]? with
    | none => simp [processNode, hN] at h
    | some node =>
      cases node with
      | compute cid n =>
        simp only [processNode, hN] at h
        cases hC : ctx.component_db.hydrated_component cid ctx.computation_db with
        | none => simp only [hC] at h; simp at h
        | some component =>
          simp only [hC] at h
          cases hCC : component.computation with
          | callable callable =>
            simp only [hCC] at h
            simp only [hC, hCC]
            obtain ⟨deps, hdeps, h⟩ := bind_eq_ok h
            obtain ⟨block, hblock, h⟩ := bind_eq_ok h
            by_cases hcond : (i == ts || n == NumberOfAllowedInvocations.multiple) = true
            · rw [if_pos hcond] at h
              simp only [pure_eq_ok, Except.ok.injEq] at h
              subst h
              have hb : (!(i == ts) && !(n == NumberOfAllowedInvocations.multiple)) = false := by
                rcases Bool.or_eq_true_iff.mp hcond with h1 | h1 <;> simp [h1]
              simp [hb]
            · rw [if_neg hcond] at h
              simp only [pure_eq_ok, Except.ok.injEq] at h
              subst h
              have hb : (!(i == ts) && !(n == NumberOfAllowedInvocations.multiple)) = true := by
                have := Bool.eq_false_iff.mpr (fun hcontra => hcond hcontra)
                rcases Bool.or_eq_false_iff.mp this with ⟨h1, h2⟩
                simp [h1, h2]
              simp [hb]
          | matchResult v t =>
            simp only [hCC] at h
            simp only [hC, hCC]
            simp only [pure_eq_ok, Except.ok.injEq] at h
            subst h
            simp
      | inputParameter t =>
        simp only [processNode, hN] at h
        cases hB : ctx.parameter_bindings.find? (fun p => p.1 == t) with
        | none => simp only [hB] at h; simp at h
        | some p =>
          simp only [hB] at h
          simp only [pure_eq_ok, Except.ok.injEq] at h
          subst h
          simp
      | matchBranching =>
        have := processNode_matchBranching_frame (fuel + 1) ctx ts av st st' i hN h
        simp [this]

/-- Over a whole traversal, the binding list gains exactly the nodes of the
finish order that satisfy the binding criterion, in traversal order. -/
theorem processNodes_amo_keys (ctx : CodegenCtx) (ts : Nat) (av : List Nat) :
    ∀ (order : List Nat) (fuel : Nat) (st st' : EmitState),
      processNodes fuel ctx ts av st order = Except.ok st' →
      st'.at_most_once_constructor_blocks.map (fun p => p.1) =
        st.at_most_once_constructor_blocks.map (fun p => p.1) ++
          order.filter (fun i => bindsToVariable ctx ts i) := by
  intro order
  induction order with
  | nil =>
    intro fuel st st' h
    cases fuel <;>
      · simp only [processNodes, pure_eq_ok, Except.ok.injEq] at h
        subst h
        simp
  | cons i rest ih =>
    intro fuel st st' h
    cases fuel with
    | zero => simp [processNodes] at h
    | succ fuel =>
      simp only [processNodes] at h
      obtain ⟨st₁, h₁, h₂⟩ := bind_eq_ok h
      rw [List.filter_cons]
      by_cases hb : bindsToVariable ctx ts i
      · have e1 := processNode_amo_keys fuel ctx ts av st st₁ i h₁
        have e2 := ih fuel st₁ st' h₂
        rw [e2, e1, hb]
        simp
      · have e1 := processNode_amo_keys fuel ctx ts av st st₁ i h₁
        have e2 := ih fuel st₁ st' h₂
        rw [e2, e1]
        simp [hb]

/-- C4 (amended): in every successful body generation, (i) the traversal
appends a `let`-binding for exactly those visited nodes that are
`Compute(Callable)` nodes with a `Single` budget and are not the traversal
start — whether a node is consumed once or many times is irrelevant, and the
traversal start itself is never bound — and (ii) the emitted body is the
sequence of those `let`-bindings, in discovery order, followed by the
statements of the traversal-start fragment. -/
theorem codegenBody_binding_discipline (fuel : Nat) (ctx : CodegenCtx)
    (generator : VariableNameGenerator) (blocks : List (Nat × Fragment))
    (visited : List Nat) (node_index : Nat) (body : List Stmt)
    (h : codegenBody (fuel + 1) ctx generator [] blocks visited node_index =
      Except.ok body) :
    ∃ terminal_index order visited' st fragment,
      find_terminal_descendant ctx.call_graph node_index = some terminal_index ∧
      (let traversal_start_index :=
        (find_match_branching_ancestor ctx.call_graph terminal_index
          visited).getD terminal_index
      dfsPost ctx.call_graph.predList ctx.call_graph.dfsFuel visited
          traversal_start_index = some (order, visited') ∧
      processNodes fuel ctx traversal_start_index visited'
          ⟨generator, [], blocks⟩ order = Except.ok st ∧
      st.at_most_once_constructor_blocks.map (fun p => p.1) =
        order.filter (fun i => bindsToVariable ctx traversal_start_index i) ∧
      lookupFragment st.blocks traversal_start_index = some fragment ∧
      body = st.at_most_once_constructor_blocks.map (fun p => p.2) ++
        fragment.stmts) := by
  simp only [codegenBody] at h
  cases hT : find_terminal_descendant ctx.call_graph node_index with
  | none => rw [hT] at h; simp [Option.elim] at h
  | some terminal_index =>
    rw [hT] at h
    simp only [Option.elim, ok_bind, pure_eq_ok] at h
    cases hD : dfsPost ctx.call_graph.predList ctx.call_graph.dfsFuel visited
        ((find_match_branching_ancestor ctx.call_graph terminal_index
          visited).getD terminal_index) with
    | none => rw [hD] at h; simp at h
    | some p =>
      rw [hD] at h
      obtain ⟨order, visited'⟩ := p
      obtain ⟨st, hst, h⟩ := bind_eq_ok h
      refine ⟨terminal_index, order, visited', st, ?_⟩
      cases hL : lookupFragment st.blocks
          ((find_match_branching_ancestor ctx.call_graph terminal_index
            visited).getD terminal_index) with
      | none => rw [hL] at h; simp at h
      | some fragment =>
        rw [hL] at h
        simp only [pure_eq_ok, ok_bind, Except.ok.injEq] at h
        refine ⟨fragment, rfl, hD, hst, ?_, hL, h.symm⟩
        simpa using processNodes_amo_keys ctx _ visited' order fuel _ st hst

/-- Is a statement a `let`-binding? -/
def Stmt.isLet : Stmt → Bool
  | .letS _ _ => true
  | .exprS _ => false

/-- The output generated for the transient-used-twice graph: the `Multiple`
constructor `t` is inlined at both consumers of `f`, with no binding. -/
def transientTwiceFn : ItemFn :=
  ⟨"handler", true, [], "Response",
   [Stmt.exprS (Expr.call "f" [Expr.call "t" [], Expr.call "t" []])]⟩

/-- C4, counterexample: node 0 is a `Compute(Callable)` node with
`n_allowed_invocations = Multiple` that is consumed twice (two incoming
edges of the handler node 1 point at it) and is not the traversal start, yet
the generated body contains no `let`-binding at all — the claim's
"used at least twice" disjunct does not hold on the code. -/
theorem transientTwice_used_twice_not_bound :
    codegen_callable_closure ⟨transientTwiceGraph, 1⟩ []
        transientTwiceComponentDb transientTwiceComputationDb =
      Except.ok transientTwiceFn ∧
    transientTwiceGraph.nodes[0]? =
      some (CallGraphNode.compute 0 NumberOfAllowedInvocations.multiple) ∧
    transientTwiceGraph.predList 1 = [0, 0] ∧
    transientTwiceFn.body.all (fun s => !(Stmt.isLet s)) = true :=
  ⟨rfl, rfl, rfl, rfl⟩

/-- A chain of three `RequestScoped` (`Single`) constructors feeding the
handler: `a() -> A`, `b(A) -> B`, `c(B) -> C`, `f(C) -> Response`. -/
def tB : ResolvedType := ⟨0, "B"⟩
def tC : ResolvedType := ⟨0, "C"⟩

def chainComputationDb : ComputationDb := ⟨[
  Computation.callable ⟨"a", [], tA⟩,
  Computation.callable ⟨"b", [tA], tB⟩,
  Computation.callable ⟨"c", [tB], tC⟩,
  Computation.callable ⟨"f", [tC], tResponse⟩]⟩

def chainComponentDb : ComponentDb := ⟨[
  (ComponentKind.constructor, 0),
  (ComponentKind.constructor, 1),
  (ComponentKind.constructor, 2),
  (ComponentKind.requestHandler, 3)]⟩

def chainGraph : RawCallGraph := ⟨
  [CallGraphNode.compute 0 NumberOfAllowedInvocations.single,
   CallGraphNode.compute 1 NumberOfAllowedInvocations.single,
   CallGraphNode.compute 2 NumberOfAllowedInvocations.single,
   CallGraphNode.compute 3 NumberOfAllowedInvocations.single],
  [⟨0, 1, CallGraphEdgeMetadata.move⟩,
   ⟨1, 2, CallGraphEdgeMetadata.move⟩,
   ⟨2, 3, CallGraphEdgeMetadata.move⟩]⟩

def chainCtx : CodegenCtx :=
  ⟨chainGraph, [], [], chainComponentDb, chainComputationDb⟩

def chainBody : List Stmt :=
  [Stmt.letS "v0" (Expr.call "a" []),
   Stmt.letS "v1" (Expr.call "b" [Expr.var "v0"]),
   Stmt.letS "v2" (Expr.call "c" [Expr.var "v1"]),
   Stmt.exprS (Expr.call "f" [Expr.var "v2"])]

/-- Witness for the amended C4 on the three-constructor chain. -/
theorem codegenBody_binding_discipline_witness :
    ∃ terminal_index order visited' st fragment,
      find_terminal_descendant chainCtx.call_graph 3 = some terminal_index ∧
      (let traversal_start_index :=
        (find_match_branching_ancestor chainCtx.call_graph terminal_index
          []).getD terminal_index
      dfsPost chainCtx.call_graph.predList chainCtx.call_graph.dfsFuel []
          traversal_start_index = some (order, visited') ∧
      processNodes 191 chainCtx traversal_start_index visited'
          ⟨⟨0⟩, [], []⟩ order = Except.ok st ∧
      st.at_most_once_constructor_blocks.map (fun p => p.1) =
        order.filter (fun i => bindsToVariable chainCtx traversal_start_index i) ∧
      lookupFragment st.blocks traversal_start_index = some fragment ∧
      chainBody = st.at_most_once_constructor_blocks.map (fun p => p.2) ++
        fragment.stmts) :=
  codegenBody_binding_discipline 191 chainCtx ⟨0⟩ [] [] 3 chainBody rfl


/-! ## Claim C3: every generated `match` lists the `Ok` arm first

The arm produced for a variant is slotted by its variant tag (lines
256-261) and the match is assembled as `ok_arm` then `err_arm` (lines
263-279), so the textual order of arms never depends on the order in which
the DFS discovered the two variant successors. -/

mutual
/-- Every `match` inside the expression has exactly the arm list
`[Ok-arm, Err-arm]`, recursively. -/
def Expr.okArmFirst : Expr → Bool
  | .var _ => true
  | .borrow e => e.okArmFirst
  | .call _ args => exprsOkArmFirst args
  | .blockE stmts => stmtsOkArmFirst stmts
  | .matchE scrutinee arms =>
      scrutinee.okArmFirst &&
      (match arms with
       | [(MatchPat.okPat _, b₁), (MatchPat.errPat _, b₂)] =>
          stmtsOkArmFirst b₁ && stmtsOkArmFirst b₂
       | _ => false)

def exprsOkArmFirst : List Expr → Bool
  | [] => true
  | e :: es => e.okArmFirst && exprsOkArmFirst es

def Stmt.okArmFirst : Stmt → Bool
  | .letS _ e => e.okArmFirst
  | .exprS e => e.okArmFirst

def stmtsOkArmFirst : List Stmt → Bool
  | [] => true
  | s :: ss => s.okArmFirst && stmtsOkArmFirst ss
end

def Fragment.okArmFirst : Fragment → Bool
  | .variableReference _ => true
  | .statement s => s.okArmFirst
  | .block stmts => stmtsOkArmFirst stmts

theorem stmtsOkArmFirst_append (l₁ l₂ : List Stmt) :
    stmtsOkArmFirst (l₁ ++ l₂) = (stmtsOkArmFirst l₁ && stmtsOkArmFirst l₂) := by
  induction l₁ with
  | nil => simp [stmtsOkArmFirst]
  | cons s ss ih => simp [stmtsOkArmFirst, ih, Bool.and_assoc]

theorem exprsOkArmFirst_all {args : List Expr}
    (h : ∀ e ∈ args, e.okArmFirst = true) : exprsOkArmFirst args = true := by
  induction args with
  | nil => simp [exprsOkArmFirst]
  | cons e es ih =>
    simp only [exprsOkArmFirst, Bool.and_eq_true]
    exact ⟨h e (by simp), ih (fun e' he' => h e' (by simp [he']))⟩

theorem Fragment.toExpr_okArmFirst {f : Fragment} (h : f.okArmFirst = true) :
    f.toExpr.okArmFirst = true := by
  cases f with
  | variableReference n => simp [Fragment.toExpr, Expr.okArmFirst]
  | statement s =>
    cases s with
    | letS n e =>
      simpa [Fragment.toExpr, Expr.okArmFirst, stmtsOkArmFirst,
        Stmt.okArmFirst, Fragment.okArmFirst] using h
    | exprS e =>
      simpa [Fragment.toExpr, Fragment.okArmFirst, Stmt.okArmFirst] using h
  | block stmts =>
    simpa [Fragment.toExpr, Expr.okArmFirst, Fragment.okArmFirst] using h

theorem Fragment.stmts_okArmFirst {f : Fragment} (h : f.okArmFirst = true) :
    stmtsOkArmFirst f.stmts = true := by
  cases f with
  | variableReference n =>
    simp [Fragment.stmts, stmtsOkArmFirst, Stmt.okArmFirst, Expr.okArmFirst]
  | statement s =>
    simpa [Fragment.stmts, stmtsOkArmFirst, Fragment.okArmFirst] using h
  | block stmts => simpa [Fragment.stmts, Fragment.okArmFirst] using h

/-- All fragments stored in a node-to-fragment map are ok-arm-first. -/
def blocksOkArmFirst (blocks : List (Nat × Fragment)) : Prop :=
  ∀ p ∈ blocks, (p.2).okArmFirst = true

/-- All recorded let-bindings are ok-arm-first. -/
def amoOkArmFirst (amo : List (Nat × Stmt)) : Prop :=
  ∀ p ∈ amo, (p.2).okArmFirst = true

theorem lookupFragment_okArmFirst {blocks : List (Nat × Fragment)} {i : Nat}
    {f : Fragment} (hb : blocksOkArmFirst blocks)
    (h : lookupFragment blocks i = some f) : f.okArmFirst = true := by
  unfold lookupFragment at h
  cases hf : blocks.find? (fun p => p.1 == i) with
  | none => rw [hf] at h; simp at h
  | some p =>
    rw [hf] at h
    simp only [Option.map] at h
    injection h with h
    exact h ▸ hb p (List.mem_of_find?_eq_some hf)

theorem exceptMap_forall {α β : Type} {f : α → Except CodegenError β}
    {P : β → Prop} (hf : ∀ a b, f a = Except.ok b → P b) :
    ∀ {l : List α} {bs : List β}, exceptMap f l = Except.ok bs → ∀ b ∈ bs, P b := by
  intro l
  induction l with
  | nil =>
    intro bs h b hb
    simp only [exceptMap, pure_eq_ok, Except.ok.injEq] at h
    subst h
    simp at hb
  | cons a l ih =>
    intro bs h b hb
    simp only [exceptMap] at h
    obtain ⟨b₁, hb₁, h⟩ := bind_eq_ok h
    obtain ⟨bs₁, hbs₁, h⟩ := bind_eq_ok h
    simp only [pure_eq_ok, Except.ok.injEq] at h
    subst h
    rcases List.mem_cons.mp hb with hb | hb
    · exact hb ▸ hf a b₁ hb₁
    · exact ih hbs₁ b hb

theorem codegen_call_block_okArmFirst
    {deps : List (Nat × ResolvedType × CallGraphEdgeMetadata)} {c : Callable}
    {blocks : List (Nat × Fragment)} {f : Fragment}
    (hb : blocksOkArmFirst blocks)
    (h : codegen_call_block deps c blocks = Except.ok f) :
    f.okArmFirst = true := by
  unfold codegen_call_block at h
  obtain ⟨args, hargs, h⟩ := bind_eq_ok h
  simp only [pure_eq_ok, Except.ok.injEq] at h
  subst h
  simp only [Fragment.okArmFirst, Stmt.okArmFirst, Expr.okArmFirst]
  refine exprsOkArmFirst_all ?_
  intro e he
  refine @exceptMap_forall _ _ _ (fun e => e.okArmFirst = true) ?_ _ _ hargs e he
  intro t b hbt
  cases hd : deps.find? (fun d => d.2.1 == t) with
  | none => simp only [hd] at hbt; simp at hbt
  | some d =>
    simp only [hd] at hbt
    cases hl : lookupFragment blocks d.1 with
    | none => simp only [hl] at hbt; simp at hbt
    | some frag =>
      simp only [hl] at hbt
      simp only [pure_eq_ok, Except.ok.injEq] at hbt
      subst hbt
      have hfrag := lookupFragment_okArmFirst hb hl
      cases d.2.2 with
      | move => simpa [renderArg] using Fragment.toExpr_okArmFirst hfrag
      | sharedBorrow =>
        simpa [renderArg, Expr.okArmFirst] using Fragment.toExpr_okArmFirst hfrag

/-- The slot invariant maintained by the arm-emission loop. -/
def okSlotInv (oa : Option (MatchPat × List Stmt)) : Prop :=
  ∀ arm, oa = some arm →
    (∃ n, arm.1 = MatchPat.okPat n) ∧ stmtsOkArmFirst arm.2 = true

def errSlotInv (ea : Option (MatchPat × List Stmt)) : Prop :=
  ∀ arm, ea = some arm →
    (∃ n, arm.1 = MatchPat.errPat n) ∧ stmtsOkArmFirst arm.2 = true

theorem emit_okArmFirst (fuel : Nat) :
    (∀ ctx gen amo blocks visited idx body,
        blocksOkArmFirst blocks → amoOkArmFirst amo →
        codegenBody fuel ctx gen amo blocks visited idx = Except.ok body →
        stmtsOkArmFirst body = true) ∧
    (∀ ctx ts av st order st',
        blocksOkArmFirst st.blocks →
        amoOkArmFirst st.at_most_once_constructor_blocks →
        processNodes fuel ctx ts av st order = Except.ok st' →
        blocksOkArmFirst st'.blocks ∧
          amoOkArmFirst st'.at_most_once_constructor_blocks) ∧
    (∀ ctx ts av st idx st',
        blocksOkArmFirst st.blocks →
        amoOkArmFirst st.at_most_once_constructor_blocks →
        processNode fuel ctx ts av st idx = Except.ok st' →
        blocksOkArmFirst st'.blocks ∧
          amoOkArmFirst st'.at_most_once_constructor_blocks) ∧
    (∀ ctx av st oa ea vs oa' ea',
        blocksOkArmFirst st.blocks →
        okSlotInv oa → errSlotInv ea →
        emitVariants fuel ctx av st oa ea vs = Except.ok (oa', ea') →
        okSlotInv oa' ∧ errSlotInv ea') := by
  induction fuel with
  | zero =>
    refine ⟨?_, ?_, ?_, ?_⟩
    · intro ctx gen amo blocks visited idx body _ _ h
      simp [codegenBody] at h
    · intro ctx ts av st order st' hb ha h
      cases order with
      | nil =>
        simp only [processNodes, pure_eq_ok, Except.ok.injEq] at h
        exact h ▸ ⟨hb, ha⟩
      | cons i rest => simp [processNodes] at h
    · intro ctx ts av st idx st' _ _ h
      simp [processNode] at h
    · intro ctx av st oa ea vs oa' ea' _ ho he h
      cases vs with
      | nil =>
        simp only [emitVariants, pure_eq_ok, Except.ok.injEq, Prod.mk.injEq] at h
        exact ⟨h.1 ▸ ho, h.2 ▸ he⟩
      | cons v rest => simp [emitVariants] at h
  | succ fuel ih =>
    obtain ⟨ihB, ihNs, ihN, ihV⟩ := ih
    refine ⟨?_, ?_, ?_, ?_⟩
    · -- codegenBody
      intro ctx gen amo blocks visited idx body hb ha h
      simp only [codegenBody] at h
      cases hT : find_terminal_descendant ctx.call_graph idx with
      | none => rw [hT] at h; simp [Option.elim] at h
      | some t =>
        rw [hT] at h
        simp only [Option.elim, ok_bind, pure_eq_ok] at h
        cases hD : dfsPost ctx.call_graph.predList ctx.call_graph.dfsFuel
            visited ((find_match_branching_ancestor ctx.call_graph t
              visited).getD t) with
        | none => rw [hD] at h; simp at h
        | some p =>
          rw [hD] at h
          obtain ⟨order, visited'⟩ := p
          obtain ⟨st, hst, h⟩ := bind_eq_ok h
          obtain ⟨hb', ha'⟩ := ihNs ctx _ visited' ⟨gen, amo, blocks⟩ order st hb ha hst
          cases hL : lookupFragment st.blocks
              ((find_match_branching_ancestor ctx.call_graph t
                visited).getD t) with
          | none => rw [hL] at h; simp at h
          | some fragment =>
            rw [hL] at h
            simp only [pure_eq_ok, ok_bind, Except.ok.injEq] at h
            subst h
            rw [stmtsOkArmFirst_append, Bool.and_eq_true]
            constructor
            · -- the let-statements
              have : ∀ s ∈ st.at_most_once_constructor_blocks.map
                  (fun p => p.2), s.okArmFirst = true := by
                intro s hs
                obtain ⟨p, hp, hps⟩ := List.mem_map.mp hs
                exact hps ▸ ha' p hp
              revert this
              generalize st.at_most_once_constructor_blocks.map
                (fun p => p.2) = stmts
              intro hall
              induction stmts with
              | nil => simp [stmtsOkArmFirst]
              | cons s ss ihs =>
                simp only [stmtsOkArmFirst, Bool.and_eq_true]
                exact ⟨hall s (by simp),
                  ihs (fun s' hs' => hall s' (by simp [hs']))⟩
            · exact Fragment.stmts_okArmFirst (lookupFragment_okArmFirst hb' hL)
    · -- processNodes
      intro ctx ts av st order st' hb ha h
      cases order with
      | nil =>
        simp only [processNodes, pure_eq_ok, Except.ok.injEq] at h
        exact h ▸ ⟨hb, ha⟩
      | cons i rest =>
        simp only [processNodes] at h
        obtain ⟨st₁, h₁, h₂⟩ := bind_eq_ok h
        obtain ⟨hb₁, ha₁⟩ := ihN ctx ts av st i st₁ hb ha h₁
        exact ihNs ctx ts av st₁ rest st' hb₁ ha₁ h₂
    · -- processNode
      intro ctx ts av st idx st' hb ha h
      cases hN : ctx.call_graph.nodes[idx]? with
      | none => simp [processNode, hN] at h
      | some node =>
        cases node with
        | compute cid n =>
          simp only [processNode, hN] at h
          cases hC : ctx.component_db.hydrated_component cid
              ctx.computation_db with
          | none => simp only [hC] at h; simp at h
          | some component =>
            simp only [hC] at h
            cases hCC : component.computation with
            | callable callable =>
              simp only [hCC] at h
              obtain ⟨deps, hdeps, h⟩ := bind_eq_ok h
              obtain ⟨block, hblock, h⟩ := bind_eq_ok h
              have hblockOk := codegen_call_block_okArmFirst hb hblock
              split at h <;>
              · simp only [pure_eq_ok, Except.ok.injEq] at h
                subst h
                refine ⟨?_, ?_⟩
                · intro p hp
                  rcases List.mem_cons.mp hp with hp | hp
                  · subst hp
                    first
                      | exact hblockOk
                      | simp [Fragment.okArmFirst]
                  · exact hb p hp
                · first
                    | exact ha
                    | (intro p hp
                       rcases List.mem_append.mp hp with hp | hp
                       · exact ha p hp
                       · simp only [List.mem_singleton] at hp
                         subst hp
                         simpa [Stmt.okArmFirst] using
                           Fragment.toExpr_okArmFirst hblockOk)
            | matchResult v t =>
              simp only [hCC, pure_eq_ok, Except.ok.injEq] at h
              exact h ▸ ⟨hb, ha⟩
        | inputParameter t =>
          simp only [processNode, hN] at h
          cases hB : ctx.parameter_bindings.find? (fun p => p.1 == t) with
          | none => simp only [hB] at h; simp at h
          | some p =>
            simp only [hB, pure_eq_ok, Except.ok.injEq] at h
            subst h
            refine ⟨?_, ha⟩
            intro q hq
            rcases List.mem_cons.mp hq with hq | hq
            · subst hq; simp [Fragment.okArmFirst]
            · exact hb q hq
        | matchBranching =>
          simp only [processNode, hN] at h
          split at h
          · simp at h
          · split at h
            · simp at h
            · obtain ⟨arms, hV, h⟩ := bind_eq_ok h
              obtain ⟨oa, ea⟩ := arms
              obtain ⟨ok_arm, hoa, h⟩ := bind_eq_ok h
              obtain ⟨err_arm, hea, h⟩ := bind_eq_ok h
              obtain ⟨rn, hrn, h⟩ := bind_eq_ok h
              obtain ⟨rb, hrb, h⟩ := bind_eq_ok h
              simp only [pure_eq_ok, Except.ok.injEq] at h
              subst h
              obtain ⟨hOk, hErr⟩ := ihV ctx av st none none
                (ctx.call_graph.successors idx) oa ea hb
                (fun arm harm => by simp at harm)
                (fun arm harm => by simp at harm) hV
              obtain ⟨⟨n₁, hpat₁⟩, hbody₁⟩ := hOk ok_arm (elim_eq_ok hoa)
              obtain ⟨⟨n₂, hpat₂⟩, hbody₂⟩ := hErr err_arm (elim_eq_ok hea)
              have hrbOk := lookupFragment_okArmFirst hb (elim_eq_ok hrb)
              refine ⟨?_, ha⟩
              intro p hp
              rcases List.mem_cons.mp hp with hp | hp
              · subst hp
                obtain ⟨p₁, b₁⟩ := ok_arm
                obtain ⟨p₂, b₂⟩ := err_arm
                simp only at hpat₁ hpat₂ hbody₁ hbody₂
                subst hpat₁
                subst hpat₂
                simp [Fragment.okArmFirst, stmtsOkArmFirst, Stmt.okArmFirst,
                  Expr.okArmFirst, Fragment.toExpr_okArmFirst hrbOk,
                  hbody₁, hbody₂]
              · exact hb p hp
    · -- emitVariants
      intro ctx av st oa ea vs oa' ea' hb ho he h
      cases vs with
      | nil =>
        simp only [emitVariants, pure_eq_ok, Except.ok.injEq,
          Prod.mk.injEq] at h
        exact ⟨h.1 ▸ ho, h.2 ▸ he⟩
      | cons v rest =>
        simp only [emitVariants] at h
        obtain ⟨body, hbody, h⟩ := bind_eq_ok h
        obtain ⟨vt, hvt, h⟩ := bind_eq_ok h
        have hbodyOk : stmtsOkArmFirst body = true := by
          refine ihB ctx st.generator.generate.2 [] _ av v body ?_ ?_ hbody
          · intro p hp
            rcases List.mem_cons.mp hp with hp | hp
            · subst hp; simp [Fragment.okArmFirst]
            · exact hb p hp
          · intro p hp; simp at hp
        cases vt with
        | ok =>
          refine ihV ctx av st _ ea rest oa' ea' hb ?_ he h
          intro arm harm
          simp only [Option.some.injEq] at harm
          exact harm ▸ ⟨⟨_, rfl⟩, hbodyOk⟩
        | err =>
          refine ihV ctx av st oa _ rest oa' ea' hb ho ?_ h
          intro arm harm
          simp only [Option.some.injEq] at harm
          exact harm ▸ ⟨⟨_, rfl⟩, hbodyOk⟩

/-- C3: in every successfully generated handler, every `match` expression
lists the `Ok` arm textually before the `Err` arm (its arm list is exactly
`[Ok-arm, Err-arm]`), whatever order the DFS discovered the two variant
successors in. -/
theorem codegen_callable_closure_ok_arm_first
    (cg : CallGraph) (package_id2name : List (Nat × String))
    (component_db : ComponentDb) (computation_db : ComputationDb) (fn : ItemFn)
    (h : codegen_callable_closure cg package_id2name component_db
      computation_db = Except.ok fn) :
    stmtsOkArmFirst fn.body = true := by
  unfold codegen_callable_closure at h
  obtain ⟨body, hbody, h⟩ := bind_eq_ok h
  have hOk : stmtsOkArmFirst body = true := by
    refine (emit_okArmFirst cg.call_graph.armFuel).1 _ _ _ _ _ _ _ ?_ ?_ hbody
    · intro p hp; simp at hp
    · intro p hp; simp at hp
  cases hroot : cg.call_graph.nodes[cg.root_node_index]? with
  | none => rw [hroot] at h; simp at h
  | some node =>
    cases node with
    | inputParameter t => rw [hroot] at h; simp at h
    | matchBranching => rw [hroot] at h; simp at h
    | compute cid n =>
      rw [hroot] at h
      simp only [pure_eq_ok, ok_bind] at h
      obtain ⟨component, hcomp, h⟩ := bind_eq_ok h
      simp only [pure_eq_ok, Except.ok.injEq] at h
      subst h
      exact hOk

/-- Witness for C3 on the fallible chain (whose output contains one match). -/
theorem codegen_callable_closure_ok_arm_first_witness :
    stmtsOkArmFirst fallibleChainActualFn.body = true :=
  codegen_callable_closure_ok_arm_first fallibleChainCallGraph []
    fallibleChainComponentDb fallibleChainComputationDb fallibleChainActualFn
    rfl


/-! ## Inversion lemmas for the DFS -/

theorem dfsPost_inv {nbrs : Nat → List Nat} {fuel : Nat}
    {visited : List Nat} {x : Nat} {order v : List Nat}
    (h : dfsPost nbrs fuel visited x = some (order, v)) :
    (x ∈ visited ∧ order = [] ∧ v = visited) ∨
    (x ∉ visited ∧ ∃ fuel' o₁, fuel = fuel' + 1 ∧
      dfsPostList nbrs fuel' (x :: visited) (nbrs x) = some (o₁, v) ∧
      order = o₁ ++ [x]) := by
  by_cases hx : x ∈ visited
  · left
    rw [dfsPost.eq_def] at h
    simp only [if_pos hx, Option.some.injEq, Prod.mk.injEq] at h
    exact ⟨hx, h.1.symm, h.2.symm⟩
  · right
    refine ⟨hx, ?_⟩
    rw [dfsPost.eq_def] at h
    simp only [if_neg hx] at h
    cases fuel with
    | zero => simp at h
    | succ fuel =>
      simp only at h
      cases hL : dfsPostList nbrs fuel (x :: visited) (nbrs x) with
      | none => rw [hL] at h; simp at h
      | some p =>
        obtain ⟨o₁, v₁⟩ := p
        rw [hL] at h
        simp only [Option.some.injEq, Prod.mk.injEq] at h
        obtain ⟨h1, h2⟩ := h
        subst h2
        exact ⟨fuel, o₁, rfl, hL, h1.symm⟩

theorem dfsPostList_nil_inv {nbrs : Nat → List Nat} {fuel : Nat}
    {visited : List Nat} {order v : List Nat}
    (h : dfsPostList nbrs fuel visited [] = some (order, v)) :
    order = [] ∧ v = visited := by
  cases fuel <;>
    · simp only [dfsPostList, Option.some.injEq, Prod.mk.injEq] at h
      exact ⟨h.1.symm, h.2.symm⟩

theorem dfsPostList_cons_inv {nbrs : Nat → List Nat} {fuel : Nat}
    {visited : List Nat} {y : Nat} {ys order v : List Nat}
    (h : dfsPostList nbrs fuel visited (y :: ys) = some (order, v)) :
    ∃ fuel' o₁ v₁ o₂, fuel = fuel' + 1 ∧
      dfsPost nbrs fuel' visited y = some (o₁, v₁) ∧
      dfsPostList nbrs fuel' v₁ ys = some (o₂, v) ∧ order = o₁ ++ o₂ := by
  cases fuel with
  | zero => simp [dfsPostList] at h
  | succ fuel =>
    simp only [dfsPostList] at h
    cases hP : dfsPost nbrs fuel visited y with
    | none => rw [hP] at h; simp at h
    | some p =>
      obtain ⟨o₁, v₁⟩ := p
      rw [hP] at h
      simp only at h
      cases hL : dfsPostList nbrs fuel v₁ ys with
      | none => rw [hL] at h; simp at h
      | some q =>
        obtain ⟨o₂, v₂⟩ := q
        rw [hL] at h
        simp only [Option.some.injEq, Prod.mk.injEq] at h
        obtain ⟨h1, h2⟩ := h
        subst h2
        exact ⟨fuel, o₁, v₁, o₂, rfl, hP, hL, h1.symm⟩


/-! ## Properties of the post-order DFS -/

/-- Reachability along the neighbor function (reflexive-transitive). -/
inductive ReachN (nbrs : Nat → List Nat) : Nat → Nat → Prop where
  | refl (x : Nat) : ReachN nbrs x x
  | step {x y z : Nat} : y ∈ nbrs x → ReachN nbrs y z → ReachN nbrs x z

theorem ReachN.trans {nbrs : Nat → List Nat} {x y z : Nat}
    (h₁ : ReachN nbrs x y) (h₂ : ReachN nbrs y z) : ReachN nbrs x z := by
  induction h₁ with
  | refl => exact h₂
  | step hmem _ ih => exact ReachN.step hmem (ih h₂)

/-- The acyclicity of a neighbor function: no edge closes a cycle. -/
def AcyclicNbrs (nbrs : Nat → List Nat) : Prop :=
  ∀ a b, b ∈ nbrs a → ReachN nbrs b a → False

/-- The core bookkeeping facts of the DFS, proved jointly: the final visited
set is the initial one plus the emitted order; emitted nodes are fresh; the
order has no duplicates; the start (resp. every listed node) ends visited. -/
theorem dfsPost_char (nbrs : Nat → List Nat) :
    ∀ fuel : Nat,
      (∀ visited x order v, dfsPost nbrs fuel visited x = some (order, v) →
        (∀ z, z ∈ v ↔ z ∈ order ∨ z ∈ visited) ∧
        (∀ z ∈ order, z ∉ visited) ∧ order.Nodup ∧ x ∈ v) ∧
      (∀ visited l order v, dfsPostList nbrs fuel visited l = some (order, v) →
        (∀ z, z ∈ v ↔ z ∈ order ∨ z ∈ visited) ∧
        (∀ z ∈ order, z ∉ visited) ∧ order.Nodup ∧ ∀ y ∈ l, y ∈ v) := by
  intro fuel
  induction fuel using Nat.strong_induction_on with
  | _ fuel ih =>
    constructor
    · intro visited x order v h
      rcases dfsPost_inv h with ⟨hx, rfl, rfl⟩ | ⟨hx, fuel', o₁, rfl, hL, rfl⟩
      · exact ⟨fun z => by simp, by simp, List.nodup_nil, hx⟩
      · obtain ⟨char₁, fresh₁, nodup₁, _⟩ :=
          ((ih fuel' (Nat.lt_succ_self _)).2 (x :: visited) (nbrs x) o₁ v hL)
        have hxnot : x ∉ o₁ := fun hmem => fresh₁ x hmem (by simp)
        refine ⟨?_, ?_, ?_, ?_⟩
        · intro z
          rw [char₁ z]
          simp only [List.mem_append, List.mem_singleton, List.mem_cons]
          tauto
        · intro z hz
          rcases List.mem_append.mp hz with hz | hz
          · intro hzv
            exact fresh₁ z hz (by simp [hzv])
          · simp only [List.mem_singleton] at hz
            exact hz ▸ hx
        · rw [List.nodup_append]
          exact ⟨nodup₁, List.nodup_singleton x,
            fun a ha hax => hxnot ((List.mem_singleton.mp hax) ▸ ha)⟩
        · rw [char₁ x]
          simp
    · intro visited l order v h
      cases l with
      | nil =>
        obtain ⟨rfl, rfl⟩ := dfsPostList_nil_inv h
        exact ⟨fun z => by simp, by simp, List.nodup_nil, by simp⟩
      | cons y ys =>
        obtain ⟨fuel', o₁, v₁, o₂, rfl, hP, hL, rfl⟩ := dfsPostList_cons_inv h
        obtain ⟨char₁, fresh₁, nodup₁, hyv₁⟩ :=
          (ih fuel' (Nat.lt_succ_self _)).1 visited y o₁ v₁ hP
        obtain ⟨char₂, fresh₂, nodup₂, hlv₂⟩ :=
          (ih fuel' (Nat.lt_succ_self _)).2 v₁ ys o₂ v hL
        have hmono : ∀ z, z ∈ v₁ → z ∈ v := by
          intro z hz
          rw [char₂ z]
          exact Or.inr hz
        refine ⟨?_, ?_, ?_, ?_⟩
        · intro z
          rw [char₂ z, char₁ z]
          simp only [List.mem_append]
          tauto
        · intro z hz
          rcases List.mem_append.mp hz with hz | hz
          · exact fresh₁ z hz
          · intro hzv
            exact fresh₂ z hz ((char₁ z).mpr (Or.inr hzv))
        · rw [List.nodup_append]
          refine ⟨nodup₁, nodup₂, ?_⟩
          intro a ha₁ ha₂
          exact fresh₂ a ha₂ ((char₁ a).mpr (Or.inl ha₁))
        · intro z hz
          rcases List.mem_cons.mp hz with hz | hz
          · exact hz ▸ hmono y hyv₁
          · exact hlv₂ z hz


/-- Every node the DFS emits is reachable from the start (resp. from a member
of the work list). -/
theorem dfsPost_reach (nbrs : Nat → List Nat) :
    ∀ fuel : Nat,
      (∀ visited x order v, dfsPost nbrs fuel visited x = some (order, v) →
        ∀ z ∈ order, ReachN nbrs x z) ∧
      (∀ visited l order v, dfsPostList nbrs fuel visited l = some (order, v) →
        ∀ z ∈ order, ∃ y ∈ l, ReachN nbrs y z) := by
  intro fuel
  induction fuel using Nat.strong_induction_on with
  | _ fuel ih =>
    constructor
    · intro visited x order v h z hz
      rcases dfsPost_inv h with ⟨hx, rfl, rfl⟩ | ⟨hx, fuel', o₁, rfl, hL, rfl⟩
      · simp at hz
      · rcases List.mem_append.mp hz with hz | hz
        · obtain ⟨y, hy, hr⟩ :=
            (ih fuel' (Nat.lt_succ_self _)).2 (x :: visited) (nbrs x) o₁ v hL z hz
          exact ReachN.step hy hr
        · simp only [List.mem_singleton] at hz
          subst hz
          exact ReachN.refl z
    · intro visited l order v h z hz
      cases l with
      | nil =>
        obtain ⟨rfl, rfl⟩ := dfsPostList_nil_inv h
        simp at hz
      | cons y ys =>
        obtain ⟨fuel', o₁, v₁, o₂, rfl, hP, hL, rfl⟩ := dfsPostList_cons_inv h
        rcases List.mem_append.mp hz with hz | hz
        · exact ⟨y, List.mem_cons_self y ys,
            (ih fuel' (Nat.lt_succ_self _)).1 visited y o₁ v₁ hP z hz⟩
        · obtain ⟨w, hw, hr⟩ :=
            (ih fuel' (Nat.lt_succ_self _)).2 v₁ ys o₂ v hL z hz
          exact ⟨w, List.mem_cons_of_mem y hw, hr⟩

/-- The neighbors of every emitted node end up in the final visited set. -/
theorem dfsPost_post_closed (nbrs : Nat → List Nat) :
    ∀ fuel : Nat,
      (∀ visited x order v, dfsPost nbrs fuel visited x = some (order, v) →
        ∀ z ∈ order, ∀ y ∈ nbrs z, y ∈ v) ∧
      (∀ visited l order v, dfsPostList nbrs fuel visited l = some (order, v) →
        ∀ z ∈ order, ∀ y ∈ nbrs z, y ∈ v) := by
  intro fuel
  induction fuel using Nat.strong_induction_on with
  | _ fuel ih =>
    constructor
    · intro visited x order v h z hz y hy
      rcases dfsPost_inv h with ⟨hx, rfl, rfl⟩ | ⟨hx, fuel', o₁, rfl, hL, rfl⟩
      · simp at hz
      · rcases List.mem_append.mp hz with hz | hz
        · exact (ih fuel' (Nat.lt_succ_self _)).2 (x :: visited) (nbrs x) o₁ v hL z hz y hy
        · simp only [List.mem_singleton] at hz
          subst hz
          exact ((dfsPost_char nbrs fuel').2 (z :: visited) (nbrs z) o₁ v hL).2.2.2 y hy
    · intro visited l order v h z hz y hy
      cases l with
      | nil =>
        obtain ⟨rfl, rfl⟩ := dfsPostList_nil_inv h
        simp at hz
      | cons w ws =>
        obtain ⟨fuel', o₁, v₁, o₂, rfl, hP, hL, rfl⟩ := dfsPostList_cons_inv h
        have hmono : ∀ a, a ∈ v₁ → a ∈ v := by
          intro a ha
          exact (((dfsPost_char nbrs fuel').2 v₁ ws o₂ v hL).1 a).mpr (Or.inr ha)
        rcases List.mem_append.mp hz with hz | hz
        · exact hmono y ((ih fuel' (Nat.lt_succ_self _)).1 visited w o₁ v₁ hP z hz y hy)
        · exact (ih fuel' (Nat.lt_succ_self _)).2 v₁ ws o₂ v hL z hz y hy

/-- For a run started with an empty visited set, the emitted order contains
everything reachable from the start. -/
theorem dfsPost_complete (nbrs : Nat → List Nat) {fuel : Nat} {x : Nat}
    {order v : List Nat}
    (h : dfsPost nbrs fuel [] x = some (order, v)) :
    ∀ z, ReachN nbrs x z → z ∈ order := by
  have hchar := (dfsPost_char nbrs fuel).1 [] x order v h
  have hv : ∀ z, z ∈ v ↔ z ∈ order := by
    intro z
    rw [hchar.1 z]
    simp
  have hstep : ∀ a b, ReachN nbrs a b → a ∈ order → b ∈ order := by
    intro a b hr
    induction hr with
    | refl => exact id
    | step hmem _ ihr =>
      intro ha
      refine ihr ((hv _).mp ?_)
      exact (dfsPost_post_closed nbrs fuel).1 [] x order v h _ ha _ hmem
  intro z hz
  exact hstep x z hz ((hv x).mp hchar.2.2.2)


/-- A mutually reachable pair of distinct nodes contradicts acyclicity. -/
theorem AcyclicNbrs.antisymm {nbrs : Nat → List Nat} (hacyc : AcyclicNbrs nbrs)
    {x y : Nat} (h₁ : ReachN nbrs x y) (h₂ : ReachN nbrs y x) : x = y := by
  cases h₁ with
  | refl => rfl
  | step hmem hr => exact absurd (hr.trans h₂) (fun hc => hacyc _ _ hmem hc)

/-- Postorder decomposition: by the time a node is emitted, each of its
neighbors is already emitted before it, or was visited before the traversal
began — and in the latter case the neighbor is no DFS-tree ancestor of the
current exploration (the gray set `G`). -/
theorem dfsPost_postorder (nbrs : Nat → List Nat) (hacyc : AcyclicNbrs nbrs) :
    ∀ fuel : Nat,
      (∀ (visited G : List Nat) (x : Nat) (order v : List Nat), dfsPost nbrs fuel visited x = some (order, v) →
        (∀ g ∈ G, ReachN nbrs g x) →
        ∀ l₁ z l₂, order = l₁ ++ z :: l₂ →
          ∀ y ∈ nbrs z, (y ∈ visited ∧ y ∉ G) ∨ y ∈ l₁) ∧
      (∀ (visited G l : List Nat) (order v : List Nat), dfsPostList nbrs fuel visited l = some (order, v) →
        (∀ g ∈ G, ∀ w ∈ l, ReachN nbrs g w) →
        ∀ l₁ z l₂, order = l₁ ++ z :: l₂ →
          ∀ y ∈ nbrs z, (y ∈ visited ∧ y ∉ G) ∨ y ∈ l₁) := by
  intro fuel
  induction fuel using Nat.strong_induction_on with
  | _ fuel ih =>
    constructor
    · intro visited G x order v h hG l₁ z l₂ hsplit y hy
      rcases dfsPost_inv h with ⟨hx, rfl, rfl⟩ | ⟨hx, fuel', o₁, rfl, hL, rfl⟩
      · exact absurd hsplit (by simp)
      · -- The start is emitted last: split the decomposition.
        have hGx : ∀ g ∈ (x :: G), ∀ w ∈ nbrs x, ReachN nbrs g w := by
          intro g hg w hw
          rcases List.mem_cons.mp hg with rfl | hg
          · exact ReachN.step hw (ReachN.refl w)
          · exact (hG g hg).trans (ReachN.step hw (ReachN.refl w))
        have hzx : z = x → l₁ = o₁ → (y ∈ visited ∧ y ∉ G) ∨ y ∈ l₁ := by
          rintro rfl rfl
          have hyv : y ∈ v :=
            ((dfsPost_char nbrs fuel').2 _ _ _ _ hL).2.2.2 y hy
          rcases ((dfsPost_char nbrs fuel').2 _ _ _ _ hL).1 y
              |>.mp hyv with hyo | hyv'
          · exact Or.inr hyo
          · rcases List.mem_cons.mp hyv' with rfl | hyv''
            · exact absurd (ReachN.refl y) (fun hc => hacyc _ _ hy hc)
            · refine Or.inl ⟨hyv'', fun hyG => ?_⟩
              exact hacyc _ _ hy (hG y hyG)
        rcases List.append_eq_append_iff.mp hsplit with ⟨a', ha₁, ha₂⟩ | ⟨c', hc₁, hc₂⟩
        · -- [x] = a' ++ z :: l₂ forces a' = [], z = x, l₂ = [].
          cases a' with
          | nil =>
            simp only [List.nil_append, List.cons.injEq] at ha₂
            simp only [List.append_nil] at ha₁
            exact hzx ha₂.1.symm ha₁
          | cons a₀ a'' =>
            simp only [List.cons_append, List.cons.injEq] at ha₂
            exact absurd ha₂.2 (by simp)
        · cases c' with
          | nil =>
            simp only [List.nil_append, List.cons.injEq] at hc₂
            simp only [List.append_nil] at hc₁
            exact hzx hc₂.1 hc₁.symm
          | cons c₀ c'' =>
            simp only [List.cons_append, List.cons.injEq] at hc₂
            obtain ⟨rfl, hl₂⟩ := hc₂
            -- z sits inside the recursive order o₁ = l₁ ++ z :: c''.
            rcases (ih fuel' (Nat.lt_succ_self _)).2 (x :: visited) (x :: G)
                (nbrs x) o₁ v hL hGx l₁ z c'' hc₁ y hy with ⟨hyv, hyG⟩ | hyl
            · rcases List.mem_cons.mp hyv with rfl | hyv'
              · exact absurd (List.mem_cons_self _ _) hyG
              · exact Or.inl ⟨hyv', fun hc => hyG (List.mem_cons_of_mem _ hc)⟩
            · exact Or.inr hyl
    · intro visited G l order v h hG l₁ z l₂ hsplit y hy
      cases l with
      | nil =>
        obtain ⟨rfl, rfl⟩ := dfsPostList_nil_inv h
        exact absurd hsplit (by simp)
      | cons w ws =>
        obtain ⟨fuel', o₁, v₁, o₂, rfl, hP, hL, rfl⟩ := dfsPostList_cons_inv h
        have hchar₁ := (dfsPost_char nbrs fuel').1 visited w o₁ v₁ hP
        have hGw : ∀ g ∈ G, ReachN nbrs g w :=
          fun g hg => hG g hg w (List.mem_cons_self _ _)
        have hGws : ∀ g ∈ G, ∀ u ∈ ws, ReachN nbrs g u :=
          fun g hg u hu => hG g hg u (List.mem_cons_of_mem _ hu)
        have hrest : ∀ p₁, o₂ = p₁ ++ z :: l₂ → l₁ = o₁ ++ p₁ →
            (y ∈ visited ∧ y ∉ G) ∨ y ∈ l₁ := by
          rintro p₁ hp rfl
          rcases (ih fuel' (Nat.lt_succ_self _)).2 v₁ G ws o₂ v hL hGws
              p₁ z l₂ hp y hy with ⟨hyv, hyG⟩ | hyl
          · rcases (hchar₁.1 y).mp hyv with hyo | hyv'
            · exact Or.inr (List.mem_append.mpr (Or.inl hyo))
            · exact Or.inl ⟨hyv', hyG⟩
          · exact Or.inr (List.mem_append.mpr (Or.inr hyl))
        rcases List.append_eq_append_iff.mp hsplit with ⟨a', ha₁, ha₂⟩ | ⟨c', hc₁, hc₂⟩
        · exact hrest a' ha₂ ha₁
        · cases c' with
          | nil =>
            simp only [List.nil_append] at hc₂
            simp only [List.append_nil] at hc₁
            exact hrest [] hc₂.symm (by simp [hc₁])
          | cons c₀ c'' =>
            simp only [List.cons_append, List.cons.injEq] at hc₂
            obtain ⟨rfl, hl₂⟩ := hc₂
            rcases (ih fuel' (Nat.lt_succ_self _)).1 visited G w o₁ v₁ hP hGw
                l₁ z c'' hc₁ y hy with hok | hyl
            · exact Or.inl hok
            · exact Or.inr hyl

/-- For a clean full run, every neighbor of an emitted node is emitted
strictly before it. -/
theorem dfsPost_prefix_closed {nbrs : Nat → List Nat} (hacyc : AcyclicNbrs nbrs)
    {fuel x : Nat} {order v : List Nat}
    (h : dfsPost nbrs fuel [] x = some (order, v)) :
    ∀ l₁ z l₂, order = l₁ ++ z :: l₂ → ∀ y ∈ nbrs z, y ∈ l₁ := by
  intro l₁ z l₂ hsplit y hy
  rcases (dfsPost_postorder nbrs hacyc fuel).1 [] [] x order v h (by simp)
      l₁ z l₂ hsplit y hy with ⟨hyv, _⟩ | hyl
  · exact absurd hyv (by simp)
  · exact hyl

/-- Reachability stays inside a neighbor-closed set. -/
theorem ReachN.mem_closed {nbrs : Nat → List Nat} {S : List Nat}
    (hS : ∀ w ∈ S, ∀ y ∈ nbrs w, y ∈ S) {a b : Nat}
    (h : ReachN nbrs a b) (ha : a ∈ S) : b ∈ S := by
  induction h with
  | refl => exact ha
  | step hmem _ ihr => exact ihr (hS _ ha _ hmem)

/-- In a clean full run on an acyclic graph, everything strictly reachable
from an emitted node is emitted strictly before it. -/
theorem dfsPost_reach_before {nbrs : Nat → List Nat} (hacyc : AcyclicNbrs nbrs)
    {fuel x : Nat} {order v : List Nat}
    (h : dfsPost nbrs fuel [] x = some (order, v)) :
    ∀ l₁ z l₂, order = l₁ ++ z :: l₂ →
      ∀ a, ReachN nbrs z a → a ≠ z → a ∈ l₁ := by
  intro l₁ z l₂ hsplit a hr hne
  have hclosed : ∀ w ∈ l₁, ∀ y ∈ nbrs w, y ∈ l₁ := by
    intro w hw y hy
    obtain ⟨p, q, hpq⟩ := List.append_of_mem hw
    subst hpq
    have : order = p ++ w :: (q ++ z :: l₂) := by simp [hsplit]
    exact List.mem_append.mpr (Or.inl (dfsPost_prefix_closed hacyc h p w _ this y hy))
  cases hr with
  | refl => exact absurd rfl hne
  | step hmem hr' =>
    exact ReachN.mem_closed hclosed hr'
      (dfsPost_prefix_closed hacyc h l₁ z l₂ hsplit _ hmem)

/-- Decompose a successful `find?` into the failing prefix and the hit. -/
theorem find?_decomp {α : Type} {p : α → Bool} {l : List α} {a : α}
    (h : l.find? p = some a) :
    ∃ l₁ l₂, l = l₁ ++ a :: l₂ ∧ ∀ b ∈ l₁, p b = false := by
  induction l with
  | nil => simp at h
  | cons x xs ihl =>
    by_cases hx : p x = true
    · rw [List.find?_cons_of_pos _ hx] at h
      injection h with h
      exact ⟨[], xs, by simp [h], by simp⟩
    · rw [List.find?_cons_of_neg _ hx] at h
      obtain ⟨l₁, l₂, hsplit, hfail⟩ := ihl h
      refine ⟨x :: l₁, l₂, by simp [hsplit], ?_⟩
      intro b hb
      rcases List.mem_cons.mp hb with rfl | hb
      · exact Bool.not_eq_true _ ▸ eq_false_of_ne_true hx
      · exact hfail b hb


/-! ## Fuel sufficiency: `dfsFuel` always suffices for the DFS -/

/-- The number of pool nodes not yet visited. -/
def freshCount (pool visited : List Nat) : Nat :=
  pool.countP (fun a => !(visited.contains a))

theorem freshCount_mono {pool visited visited' : List Nat}
    (h : ∀ a, a ∈ visited → a ∈ visited') :
    freshCount pool visited' ≤ freshCount pool visited := by
  refine List.countP_mono_left ?_
  intro a _ ha
  simp only [Bool.not_eq_true'] at ha ⊢
  rcases hc : visited.contains a with _ | _
  · rfl
  · exact absurd (h a (by simpa using hc)) (by simpa using ha)

theorem freshCount_cons_lt {pool visited : List Nat} {x : Nat}
    (hx : x ∈ pool) (hv : x ∉ visited) :
    freshCount pool (x :: visited) < freshCount pool visited := by
  induction pool with
  | nil => simp at hx
  | cons a pool' ihp =>
    have hmono : freshCount pool' (x :: visited) ≤ freshCount pool' visited :=
      freshCount_mono (fun b hb => List.mem_cons_of_mem _ hb)
    simp only [freshCount, List.countP_cons]
    by_cases hax : a = x
    · have h₁ : (!((x :: visited).contains a)) = false := by simp [hax]
      have h₂ : (!(visited.contains a)) = true := by
        rw [hax]
        simpa using hv
      simp only [h₁, h₂]
      simp only [freshCount] at hmono
      simp only [Bool.false_eq_true, if_false, if_true, Nat.add_zero]
      omega
    · have h₁ : ((x :: visited).contains a) = (visited.contains a) := by
        simp only [List.contains_cons]
        have hne : (a == x) = false := beq_eq_false_iff_ne.mpr hax
        simp [hne]
      have hx' : x ∈ pool' := by
        rcases List.mem_cons.mp hx with h | h
        · exact absurd h.symm hax
        · exact h
      have hih := ihp hx'
      simp only [freshCount] at hih
      rw [h₁]
      omega

/-- Unfolding equations for the DFS, phrased so they rewrite cleanly. -/
theorem dfsPost_mem_eq {nbrs : Nat → List Nat} {fuel : Nat}
    {visited : List Nat} {x : Nat} (hx : x ∈ visited) :
    dfsPost nbrs fuel visited x = some ([], visited) := by
  rw [dfsPost.eq_def]
  simp [if_pos hx]

theorem dfsPost_succ_not_mem {nbrs : Nat → List Nat} {f : Nat}
    {visited : List Nat} {x : Nat} (hx : x ∉ visited) :
    dfsPost nbrs (f + 1) visited x =
      match dfsPostList nbrs f (x :: visited) (nbrs x) with
      | none => none
      | some (order, visited') => some (order ++ [x], visited') := by
  rw [dfsPost.eq_def]
  simp [if_neg hx]

theorem dfsPostList_nil_eq {nbrs : Nat → List Nat} {fuel : Nat}
    {visited : List Nat} :
    dfsPostList nbrs fuel visited [] = some ([], visited) := by
  cases fuel <;> rfl

theorem dfsPostList_succ_cons_eq {nbrs : Nat → List Nat} {f : Nat}
    {visited : List Nat} {y : Nat} {ys : List Nat} :
    dfsPostList nbrs (f + 1) visited (y :: ys) =
      match dfsPost nbrs f visited y with
      | none => none
      | some (order₁, visited₁) =>
        match dfsPostList nbrs f visited₁ ys with
        | none => none
        | some (order₂, visited₂) => some (order₁ ++ order₂, visited₂) := rfl

/-- With enough fuel relative to the unvisited pool, the DFS cannot run dry:
provided every neighbor lies in the pool, every node with neighbors lies in
the pool, and `D` bounds the neighbor-list lengths. -/
theorem dfsPost_total (nbrs : Nat → List Nat) (pool : List Nat) (D : Nat)
    (hactive : ∀ x, nbrs x ≠ [] → x ∈ pool)
    (hdeg : ∀ x, (nbrs x).length ≤ D) :
    ∀ fuel : Nat,
      (∀ (visited : List Nat) (x : Nat),
        freshCount pool visited * (D + 2) + 1 ≤ fuel →
        dfsPost nbrs fuel visited x ≠ none) ∧
      (∀ (visited l : List Nat),
        freshCount pool visited * (D + 2) + l.length + 1 ≤ fuel →
        dfsPostList nbrs fuel visited l ≠ none) := by
  intro fuel
  induction fuel using Nat.strong_induction_on with
  | _ fuel ih =>
    constructor
    · intro visited x hfuel
      by_cases hx : x ∈ visited
      · rw [dfsPost_mem_eq hx]
        simp
      · cases fuel with
        | zero => omega
        | succ f =>
          rw [dfsPost_succ_not_mem hx]
          by_cases hn : nbrs x = []
          · rw [hn, dfsPostList_nil_eq]
            simp
          · have hxp : x ∈ pool := hactive x hn
            have hlt : freshCount pool (x :: visited) < freshCount pool visited :=
              freshCount_cons_lt hxp hx
            have hreq : freshCount pool (x :: visited) * (D + 2)
                + (nbrs x).length + 1 ≤ f := by
              have h₁ : freshCount pool (x :: visited) + 1 ≤ freshCount pool visited := hlt
              have h₂ : (freshCount pool (x :: visited) + 1) * (D + 2) ≤
                  freshCount pool visited * (D + 2) :=
                Nat.mul_le_mul_right _ h₁
              have h₃ := hdeg x
              have h₄ : freshCount pool visited * (D + 2) + 1 ≤ f + 1 := hfuel
              rw [Nat.add_mul, Nat.one_mul] at h₂
              omega
            have hnn := (ih f (Nat.lt_succ_self _)).2 (x :: visited) (nbrs x) hreq
            rcases hres : dfsPostList nbrs f (x :: visited) (nbrs x) with _ | p
            · exact absurd hres hnn
            · obtain ⟨o, v⟩ := p
              simp
    · intro visited l hfuel
      cases l with
      | nil =>
        rw [dfsPostList_nil_eq]
        simp
      | cons y ys =>
        cases fuel with
        | zero => omega
        | succ f =>
          rw [dfsPostList_succ_cons_eq]
          simp only [List.length_cons] at hfuel
          have hreqA : freshCount pool visited * (D + 2) + 1 ≤ f := by omega
          have hA := (ih f (Nat.lt_succ_self _)).1 visited y hreqA
          rcases hres : dfsPost nbrs f visited y with _ | p
          · exact absurd hres hA
          · obtain ⟨o₁, v₁⟩ := p
            have hsub : ∀ a, a ∈ visited → a ∈ v₁ := by
              intro a ha
              exact (((dfsPost_char nbrs f).1 visited y o₁ v₁ hres).1 a).mpr (Or.inr ha)
            have hreqB : freshCount pool v₁ * (D + 2) + ys.length + 1 ≤ f := by
              have hm := @freshCount_mono pool visited v₁ hsub
              have h₂ : freshCount pool v₁ * (D + 2) ≤
                  freshCount pool visited * (D + 2) :=
                Nat.mul_le_mul_right _ hm
              omega
            have hB := (ih f (Nat.lt_succ_self _)).2 v₁ ys hreqB
            rcases hres₂ : dfsPostList nbrs f v₁ ys with _ | q
            · exact absurd hres₂ hB
            · obtain ⟨o₂, v₂⟩ := q
              simp [hres₂]

/-- The node pool of a graph: all edge sources and targets. -/
def RawCallGraph.nodePool (g : RawCallGraph) : List Nat :=
  g.edges.map (fun e => e.source) ++ g.edges.map (fun e => e.target)

theorem predList_subset_pool (g : RawCallGraph) :
    ∀ x y, y ∈ g.predList x → y ∈ g.nodePool := by
  intro x y hy
  simp only [RawCallGraph.predList, List.mem_map, List.mem_filter] at hy
  obtain ⟨e, ⟨he, _⟩, rfl⟩ := hy
  exact List.mem_append.mpr (Or.inl (List.mem_map.mpr ⟨e, he, rfl⟩))

theorem predList_active_mem_pool (g : RawCallGraph) :
    ∀ x, g.predList x ≠ [] → x ∈ g.nodePool := by
  intro x hx
  rcases hl : g.predList x with _ | ⟨y, ys⟩
  · exact absurd hl hx
  · have hy : y ∈ g.predList x := by rw [hl]; exact List.mem_cons_self _ _
    simp only [RawCallGraph.predList, List.mem_map, List.mem_filter] at hy
    obtain ⟨e, ⟨he, ht⟩, _⟩ := hy
    refine List.mem_append.mpr (Or.inr (List.mem_map.mpr ⟨e, he, ?_⟩))
    simpa using ht

theorem predList_length_le (g : RawCallGraph) :
    ∀ x, (g.predList x).length ≤ g.edges.length := by
  intro x
  simp only [RawCallGraph.predList, List.length_map]
  exact List.length_filter_le _ _

/-- `dfsFuel` suffices for the reversed-graph DFS from any start and any
visited set. -/
theorem dfsPost_dfsFuel_total (g : RawCallGraph) (visited : List Nat) (x : Nat) :
    dfsPost g.predList g.dfsFuel visited x ≠ none := by
  refine (dfsPost_total g.predList g.nodePool g.edges.length
    (predList_active_mem_pool g)
    (predList_length_le g) g.dfsFuel).1 visited x ?_
  have hfc : freshCount g.nodePool visited ≤ 2 * g.edges.length := by
    have h₁ : freshCount g.nodePool visited ≤ g.nodePool.length :=
      List.countP_le_length _
    have h₂ : g.nodePool.length = 2 * g.edges.length := by
      simp [RawCallGraph.nodePool]
      omega
    omega
  have h₃ : freshCount g.nodePool visited * (g.edges.length + 2) ≤
      2 * g.edges.length * (g.edges.length + 2) :=
    Nat.mul_le_mul_right _ hfc
  have h₄ : g.dfsFuel = (2 * g.edges.length + 1) * (g.edges.length + 2) := rfl
  have h₅ : (2 * g.edges.length + 1) * (g.edges.length + 2) =
      2 * g.edges.length * (g.edges.length + 2) + (g.edges.length + 2) := by ring
  omega


/-! ## The traversal-seed choice (lines 125-134) never lets a
`MatchBranching` node surface mid-traversal -/

theorem reachN_rank {nbrs : Nat → List Nat} {f : Nat → Nat}
    (hf : ∀ a b, b ∈ nbrs a → f b < f a) {x z : Nat}
    (h : ReachN nbrs x z) : f z ≤ f x := by
  induction h with
  | refl => exact Nat.le_refl _
  | step hmem _ ihr => exact Nat.le_trans ihr (Nat.le_of_lt (hf _ _ hmem))

/-- A strictly decreasing rank along edges rules out cycles. -/
theorem acyclicNbrs_of_rank {nbrs : Nat → List Nat} (f : Nat → Nat)
    (hf : ∀ a b, b ∈ nbrs a → f b < f a) : AcyclicNbrs nbrs := by
  intro a b hmem hreach
  exact absurd (reachN_rank hf hreach) (Nat.not_le_of_lt (hf a b hmem))

/-- When `find_match_branching_ancestor` returns a node, that node is an
unvisited `MatchBranching` strict ancestor of the start, and no unvisited
`MatchBranching` node lies strictly above it. -/
theorem find_match_branching_ancestor_some_spec (g : RawCallGraph)
    (hacyc : AcyclicNbrs g.predList) {t : Nat} {visited : List Nat} {m : Nat}
    (h : find_match_branching_ancestor g t visited = some m) :
    g.isMatchBranching m = true ∧ m ∉ visited ∧ m ≠ t ∧
      ReachN g.predList t m ∧
      ∀ a, ReachN g.predList m a → a ≠ m → g.isMatchBranching a = true →
        a ∈ visited := by
  unfold find_match_branching_ancestor at h
  cases hdfs : dfsPost g.predList g.dfsFuel [] t with
  | none => exact absurd hdfs (dfsPost_dfsFuel_total g [] t)
  | some p =>
    obtain ⟨order, v⟩ := p
    rw [hdfs] at h
    have hpred := List.find?_some h
    simp only [Bool.and_eq_true, bne_iff_ne, Bool.not_eq_true'] at hpred
    obtain ⟨⟨hmt, hmv⟩, hmb⟩ := hpred
    have hmv' : m ∉ visited := by simpa using hmv
    have hmo : m ∈ order := List.mem_of_find?_eq_some h
    refine ⟨hmb, hmv', hmt, dfsPost_reach g.predList g.dfsFuel
      |>.1 [] t order v hdfs m hmo, ?_⟩
    intro a hr hne hamb
    by_contra hav
    obtain ⟨l₁, l₂, hsplit, hfail⟩ := find?_decomp h
    have hal : a ∈ l₁ :=
      dfsPost_reach_before hacyc hdfs l₁ m l₂ hsplit a hr hne
    have hat : a ≠ t := by
      intro hat
      subst hat
      exact hne (hacyc.antisymm hr
        (dfsPost_reach g.predList g.dfsFuel |>.1 [] a order v hdfs m hmo)).symm
    have htrue : (a != t && !(visited.contains a) && g.isMatchBranching a) = true := by
      simp [hat, hav, hamb]
    rw [hfail a hal] at htrue
    exact Bool.false_ne_true htrue

/-- When no ancestor is returned, there is no unvisited `MatchBranching`
strict ancestor of the start at all. -/
theorem find_match_branching_ancestor_none_spec (g : RawCallGraph)
    {t : Nat} {visited : List Nat}
    (h : find_match_branching_ancestor g t visited = none) :
    ∀ a, ReachN g.predList t a → a ≠ t → g.isMatchBranching a = true →
      a ∈ visited := by
  unfold find_match_branching_ancestor at h
  cases hdfs : dfsPost g.predList g.dfsFuel [] t with
  | none => exact absurd hdfs (dfsPost_dfsFuel_total g [] t)
  | some p =>
    obtain ⟨order, v⟩ := p
    rw [hdfs] at h
    intro a hr hne hamb
    by_contra hav
    have hao : a ∈ order := dfsPost_complete g.predList hdfs a hr
    have := List.find?_eq_none.mp h a hao
    exact absurd this (by simp [hne, hav, hamb])

/-- Every `MatchBranching` node emitted by a traversal seeded through the
ancestor search equals the traversal start. -/
theorem order_mb_eq_ts (g : RawCallGraph) (hacyc : AcyclicNbrs g.predList)
    {visited : List Nat} {t : Nat} {order v : List Nat}
    (hdfs : dfsPost g.predList g.dfsFuel visited
      ((find_match_branching_ancestor g t visited).getD t) = some (order, v)) :
    ∀ z ∈ order, g.isMatchBranching z = true →
      z = (find_match_branching_ancestor g t visited).getD t := by
  intro z hz hzmb
  by_contra hne
  have hfresh : z ∉ visited :=
    ((dfsPost_char g.predList g.dfsFuel).1 _ _ _ _ hdfs).2.1 z hz
  have hreach : ReachN g.predList
      ((find_match_branching_ancestor g t visited).getD t) z :=
    (dfsPost_reach g.predList g.dfsFuel).1 _ _ _ _ hdfs z hz
  cases hfa : find_match_branching_ancestor g t visited with
  | none =>
    rw [hfa] at hdfs hreach hne
    simp only [Option.getD_none] at hdfs hreach hne
    exact hfresh (find_match_branching_ancestor_none_spec g hfa z
      hreach hne hzmb)
  | some m =>
    rw [hfa] at hdfs hreach hne
    simp only [Option.getD_some] at hdfs hreach hne
    exact hfresh ((find_match_branching_ancestor_some_spec g hacyc hfa).2.2.2.2 z
      hreach hne hzmb)


theorem get_node_type_inputs_ne_mnts (g : RawCallGraph) (i : Nat)
    (db : ComponentDb) (cdb : ComputationDb) :
    get_node_type_inputs g i db cdb ≠
      Except.error CodegenError.matchNotTraversalStart := by
  unfold get_node_type_inputs
  refine exceptMap_ne_error ?_ _
  intro e
  split <;> try simp
  split <;> simp

theorem codegen_call_block_ne_mnts
    (deps : List (Nat × ResolvedType × CallGraphEdgeMetadata)) (c : Callable)
    (blocks : List (Nat × Fragment)) :
    codegen_call_block deps c blocks ≠
      Except.error CodegenError.matchNotTraversalStart := by
  unfold codegen_call_block
  refine bind_ne_error (exceptMap_ne_error ?_ _) ?_
  · intro t
    split <;> try simp
    split <;> simp
  · intro args
    simp

theorem variantTypeOf_ne_mnts (g : RawCallGraph) (db : ComponentDb)
    (cdb : ComputationDb) (v : Nat) :
    variantTypeOf g db cdb v ≠
      Except.error CodegenError.matchNotTraversalStart := by
  unfold variantTypeOf
  split <;> try simp
  split <;> simp

/-- The `assert_eq!(current_index, traversal_start_index)` of line 194 never
fires: each level of the emission seeds its traversal so that the only
`MatchBranching` node the DFS can pop is the traversal start itself. -/
theorem emit_ne_mnts (ctx : CodegenCtx)
    (hacyc : AcyclicNbrs ctx.call_graph.predList) (fuel : Nat) :
    (∀ gen amo blocks visited idx,
        codegenBody fuel ctx gen amo blocks visited idx ≠
          Except.error CodegenError.matchNotTraversalStart) ∧
    (∀ ts av st order,
        (∀ z ∈ order, ctx.call_graph.isMatchBranching z = true → z = ts) →
        processNodes fuel ctx ts av st order ≠
          Except.error CodegenError.matchNotTraversalStart) ∧
    (∀ ts av st idx,
        (ctx.call_graph.isMatchBranching idx = true → idx = ts) →
        processNode fuel ctx ts av st idx ≠
          Except.error CodegenError.matchNotTraversalStart) ∧
    (∀ av st oa ea vs,
        emitVariants fuel ctx av st oa ea vs ≠
          Except.error CodegenError.matchNotTraversalStart) := by
  induction fuel with
  | zero =>
    refine ⟨?_, ?_, ?_, ?_⟩
    · intro gen amo blocks visited idx
      simp [codegenBody]
    · intro ts av st order hmb
      cases order <;> simp [processNodes]
    · intro ts av st idx hmb
      simp [processNode]
    · intro av st oa ea vs
      cases vs <;> simp [emitVariants]
  | succ fuel ih =>
    obtain ⟨ihB, ihNs, ihN, ihV⟩ := ih
    refine ⟨?_, ?_, ?_, ?_⟩
    · intro gen amo blocks visited idx
      simp only [codegenBody]
      cases hT : find_terminal_descendant ctx.call_graph idx with
      | none => simp [Option.elim]
      | some t =>
        simp only [Option.elim, ok_bind, pure_eq_ok]
        split
        · simp
        · case _ order visited' hdfs =>
          refine bind_ne_error
            (ihNs _ _ _ _ (order_mb_eq_ts ctx.call_graph hacyc hdfs)) ?_
          intro st
          split <;> simp
    · intro ts av st order hmb
      cases order with
      | nil => simp [processNodes]
      | cons i rest =>
        simp only [processNodes]
        refine bind_ne_error
          (ihN _ _ _ _ (fun h => hmb i (List.mem_cons_self _ _) h)) ?_
        intro st'
        exact ihNs _ _ _ _ (fun z hz h => hmb z (List.mem_cons_of_mem _ hz) h)
    · intro ts av st idx hmb
      simp only [processNode]
      split <;> try simp
      case _ cid nall heq =>
        split <;> try simp
        case _ component heq2 =>
          split
          · refine bind_ne_error (get_node_type_inputs_ne_mnts _ _ _ _) ?_
            intro deps
            refine bind_ne_error (codegen_call_block_ne_mnts _ _ _) ?_
            intro block
            split <;> simp
          · simp
      case _ t heq =>
        split <;> simp
      case _ heq =>
        have hidx : idx = ts :=
          hmb (by simp [RawCallGraph.isMatchBranching, heq])
        split <;> try simp
        refine bind_ne_error (ihV _ _ _ _ _) ?_
        intro arms
        obtain ⟨oa, ea⟩ := arms
        cases oa with
        | none => simp [Option.elim]
        | some ok_arm =>
          cases ea with
          | none => simp [Option.elim]
          | some err_arm =>
            simp only [Option.elim, ok_bind]
            split <;> try simp
            split <;> simp
    · intro av st oa ea vs
      cases vs with
      | nil => simp [emitVariants]
      | cons v rest =>
        simp only [emitVariants]
        refine bind_ne_error (ihB _ _ _ _ _) ?_
        intro body
        refine bind_ne_error (variantTypeOf_ne_mnts _ _ _ _) ?_
        intro vt
        cases vt <;> exact ihV _ _ _ _ _


/-- C6: for every acyclic call graph, each invocation of the body-generation
loop starts its post-order DFS either at a `MatchBranching` ancestor of the
chosen terminal descendant that has no unvisited `MatchBranching` ancestors of
its own, or, if no such ancestor exists, at the terminal descendant itself;
consequently every `MatchBranching` node popped by the main DFS loop equals
the traversal start — the `assert_eq!(current_index, traversal_start_index)`
of line 194 never fails, on any level of the emission recursion. -/
theorem codegen_traversal_start_discipline (ctx : CodegenCtx)
    (hacyc : AcyclicNbrs ctx.call_graph.predList) :
    (∀ (t : Nat) (visited : List Nat) (m : Nat),
        find_match_branching_ancestor ctx.call_graph t visited = some m →
        ctx.call_graph.isMatchBranching m = true ∧ m ∉ visited ∧ m ≠ t ∧
          ReachN ctx.call_graph.predList t m ∧
          ∀ a, ReachN ctx.call_graph.predList m a → a ≠ m →
            ctx.call_graph.isMatchBranching a = true → a ∈ visited) ∧
    (∀ (t : Nat) (visited : List Nat),
        find_match_branching_ancestor ctx.call_graph t visited = none →
        ∀ a, ReachN ctx.call_graph.predList t a → a ≠ t →
          ctx.call_graph.isMatchBranching a = true → a ∈ visited) ∧
    (∀ (fuel : Nat) (gen : VariableNameGenerator) (amo : List (Nat × Stmt))
        (blocks : List (Nat × Fragment)) (visited : List Nat) (idx : Nat),
        codegenBody fuel ctx gen amo blocks visited idx ≠
          Except.error CodegenError.matchNotTraversalStart) :=
  ⟨fun _ _ _ h => find_match_branching_ancestor_some_spec ctx.call_graph hacyc h,
   fun _ _ h => find_match_branching_ancestor_none_spec ctx.call_graph h,
   fun fuel gen amo blocks visited idx =>
     (emit_ne_mnts ctx hacyc fuel).1 gen amo blocks visited idx⟩

theorem fallibleChain_acyclic : AcyclicNbrs fallibleChainCtx.call_graph.predList := by
  refine acyclicNbrs_of_rank (fun i => i) ?_
  intro a b hb
  simp only [fallibleChainCtx, RawCallGraph.predList, fallibleChainGraph,
    List.mem_map, List.mem_filter] at hb
  obtain ⟨e, he, hsrc⟩ := hb
  obtain ⟨hmem, htgt⟩ := he
  subst hsrc
  simp only [List.mem_cons, List.not_mem_nil, or_false] at hmem
  rcases hmem with rfl | rfl | rfl | rfl | rfl <;>
    · simp only [beq_iff_eq] at htgt
      subst htgt
      decide

/-- Witness for C6: the fallible-chain graph is acyclic, the ancestor search
from the terminal node 4 picks the `MatchBranching` node 1, and body
generation on this graph never trips the traversal-start assertion. -/
theorem codegen_traversal_start_discipline_witness :
    AcyclicNbrs fallibleChainCtx.call_graph.predList ∧
    find_match_branching_ancestor fallibleChainCtx.call_graph 4 [] = some 1 ∧
    fallibleChainCtx.call_graph.isMatchBranching 1 = true ∧
    codegenBody fallibleChainCtx.call_graph.armFuel fallibleChainCtx
        ⟨0⟩ [] [] [] 4 ≠ Except.error CodegenError.matchNotTraversalStart := by
  refine ⟨fallibleChain_acyclic, rfl, ?_, ?_⟩
  · exact ((codegen_traversal_start_discipline fallibleChainCtx
      fallibleChain_acyclic).1 4 [] 1 rfl).1
  · exact (codegen_traversal_start_discipline fallibleChainCtx
      fallibleChain_acyclic).2.2 _ _ _ _ _ _


/-! ## Groundwork for the totality analysis (claim C7) -/

theorem ReachN.cases_mem {nbrs : Nat → List Nat} {x z : Nat}
    (h : ReachN nbrs x z) : z = x ∨ ∃ a, z ∈ nbrs a := by
  induction h with
  | refl => exact Or.inl rfl
  | step hmem _ ih =>
    rcases ih with rfl | h
    · exact Or.inr ⟨_, hmem⟩
    · exact Or.inr h

theorem mem_succList_iff_mem_predList (g : RawCallGraph) {x y : Nat} :
    y ∈ g.succList x ↔ x ∈ g.predList y := by
  simp only [RawCallGraph.succList, RawCallGraph.predList, List.mem_map,
    List.mem_filter]
  constructor
  · rintro ⟨e, ⟨he, hs⟩, rfl⟩
    simp only [beq_iff_eq] at hs
    exact ⟨e, ⟨he, by simp⟩, hs⟩
  · rintro ⟨e, ⟨he, ht⟩, rfl⟩
    simp only [beq_iff_eq] at ht
    exact ⟨e, ⟨he, by simp⟩, ht⟩

theorem reachN_succ_of_pred (g : RawCallGraph) {x y : Nat}
    (h : ReachN g.predList x y) : ReachN g.succList y x := by
  induction h with
  | refl => exact ReachN.refl _
  | step hmem _ ih =>
    exact ih.trans (ReachN.step ((mem_succList_iff_mem_predList g).mpr hmem)
      (ReachN.refl _))

theorem reachN_pred_of_succ (g : RawCallGraph) {x y : Nat}
    (h : ReachN g.succList x y) : ReachN g.predList y x := by
  induction h with
  | refl => exact ReachN.refl _
  | step hm _ ih =>
    exact ih.trans (ReachN.step ((mem_succList_iff_mem_predList g).mp hm)
      (ReachN.refl _))

theorem acyclic_succ_of_acyclic_pred (g : RawCallGraph)
    (h : AcyclicNbrs g.predList) : AcyclicNbrs g.succList := by
  intro a b hmem hreach
  exact h b a ((mem_succList_iff_mem_predList g).mp hmem)
    (reachN_pred_of_succ g hreach)

theorem succList_active_mem_pool (g : RawCallGraph) :
    ∀ x, g.succList x ≠ [] → x ∈ g.nodePool := by
  intro x hx
  rcases hl : g.succList x with _ | ⟨y, ys⟩
  · exact absurd hl hx
  · have hy : y ∈ g.succList x := by rw [hl]; exact List.mem_cons_self _ _
    simp only [RawCallGraph.succList, List.mem_map, List.mem_filter] at hy
    obtain ⟨e, ⟨he, hs⟩, _⟩ := hy
    refine List.mem_append.mpr (Or.inl (List.mem_map.mpr ⟨e, he, ?_⟩))
    simpa using hs

theorem succList_length_le (g : RawCallGraph) :
    ∀ x, (g.succList x).length ≤ g.edges.length := by
  intro x
  simp only [RawCallGraph.succList, List.length_map]
  exact List.length_filter_le _ _

/-- `dfsFuel` also suffices for the forward-graph DFS. -/
theorem dfsPost_dfsFuel_total_succ (g : RawCallGraph) (visited : List Nat)
    (x : Nat) : dfsPost g.succList g.dfsFuel visited x ≠ none := by
  refine (dfsPost_total g.succList g.nodePool g.edges.length
    (succList_active_mem_pool g) (succList_length_le g) g.dfsFuel).1
    visited x ?_
  have hfc : freshCount g.nodePool visited ≤ 2 * g.edges.length := by
    have h₁ : freshCount g.nodePool visited ≤ g.nodePool.length :=
      List.countP_le_length _
    have h₂ : g.nodePool.length = 2 * g.edges.length := by
      simp [RawCallGraph.nodePool]
      omega
    omega
  have h₃ : freshCount g.nodePool visited * (g.edges.length + 2) ≤
      2 * g.edges.length * (g.edges.length + 2) :=
    Nat.mul_le_mul_right _ hfc
  have h₄ : g.dfsFuel = (2 * g.edges.length + 1) * (g.edges.length + 2) := rfl
  have h₅ : (2 * g.edges.length + 1) * (g.edges.length + 2) =
      2 * g.edges.length * (g.edges.length + 2) + (g.edges.length + 2) := by ring
  omega

/-- A duplicate-free list of pool-plus-one-start nodes is no longer than the
pool plus one. -/
theorem nodup_subset_length_le (s : Nat) {l pool : List Nat}
    (hnd : l.Nodup) (hsub : ∀ z ∈ l, z = s ∨ z ∈ pool) :
    l.length ≤ pool.length + 1 := by
  have hsub' : ∀ z ∈ l, z ∈ s :: pool := by
    intro z hz
    rcases hsub z hz with rfl | hz'
    · exact List.mem_cons_self _ _
    · exact List.mem_cons_of_mem _ hz'
  have h₁ : l.length = l.toFinset.card := (List.toFinset_card_of_nodup hnd).symm
  have h₂ : l.toFinset ⊆ (s :: pool).toFinset := by
    intro a ha
    simp only [List.mem_toFinset] at ha ⊢
    exact hsub' a ha
  have h₃ : l.toFinset.card ≤ (s :: pool).toFinset.card := Finset.card_le_card h₂
  have h₄ : (s :: pool).toFinset.card ≤ (s :: pool).length :=
    List.toFinset_card_le _
  simp only [List.length_cons] at h₄
  omega

/-- The emitted order of any DFS run is at most one longer than the pool. -/
theorem dfsPost_order_length_le (g : RawCallGraph) (nbrs : Nat → List Nat)
    (hsub : ∀ x y, y ∈ nbrs x → y ∈ g.nodePool)
    {fuel x : Nat} {visited order v : List Nat}
    (h : dfsPost nbrs fuel visited x = some (order, v)) :
    order.length ≤ g.nodePool.length + 1 := by
  refine nodup_subset_length_le x
    (((dfsPost_char nbrs fuel).1 _ _ _ _ h).2.2.1) ?_
  intro z hz
  have hr := (dfsPost_reach nbrs fuel).1 _ _ _ _ h z hz
  rcases hr.cases_mem with rfl | ⟨a, ha⟩
  · exact Or.inl rfl
  · exact Or.inr (hsub a z ha)

/-- Fragment-lookup plumbing: a cons preserves and adds hits. -/
theorem lookupFragment_cons_isSome {blocks : List (Nat × Fragment)}
    {z k : Nat} {f : Fragment}
    (h : (lookupFragment blocks z).isSome = true) :
    (lookupFragment ((k, f) :: blocks) z).isSome = true := by
  simp only [lookupFragment, List.find?_cons] at *
  cases hk : ((k, f).1 == z) with
  | true => simp
  | false => simpa using h

theorem lookupFragment_cons_self {blocks : List (Nat × Fragment)}
    {k : Nat} {f : Fragment} :
    (lookupFragment ((k, f) :: blocks) k).isSome = true := by
  simp [lookupFragment, List.find?_cons]

/-- Mapping a list through an everywhere-succeeding effectful function
succeeds, and the outputs are pointwise images of the inputs. -/
theorem exceptMap_ok {α β : Type} {f : α → Except CodegenError β}
    {l : List α} (h : ∀ a ∈ l, ∃ b, f a = Except.ok b) :
    ∃ bs, exceptMap f l = Except.ok bs ∧
      (∀ b ∈ bs, ∃ a ∈ l, f a = Except.ok b) ∧
      (∀ a ∈ l, ∃ b ∈ bs, f a = Except.ok b) := by
  induction l with
  | nil => exact ⟨[], rfl, by simp, by simp⟩
  | cons a l ihl =>
    obtain ⟨b, hb⟩ := h a (List.mem_cons_self _ _)
    obtain ⟨bs, hbs, hmem, hcov⟩ := ihl (fun a' ha' => h a' (List.mem_cons_of_mem _ ha'))
    refine ⟨b :: bs, ?_, ?_, ?_⟩
    · simp [exceptMap, hb, hbs]
    · intro b' hb'
      rcases List.mem_cons.mp hb' with rfl | hb'
      · exact ⟨a, List.mem_cons_self _ _, hb⟩
      · obtain ⟨a', ha', hfa⟩ := hmem b' hb'
        exact ⟨a', List.mem_cons_of_mem _ ha', hfa⟩
    · intro a' ha'
      rcases List.mem_cons.mp ha' with rfl | ha'
      · exact ⟨b, List.mem_cons_self _ _, hb⟩
      · obtain ⟨b', hb', hfa⟩ := hcov a' ha'
        exact ⟨b', List.mem_cons_of_mem _ hb', hfa⟩

theorem incomingEdges_source_mem_predList (g : RawCallGraph) {i : Nat}
    {e : GraphEdge} (h : e ∈ g.incomingEdges i) : e.source ∈ g.predList i := by
  simp only [RawCallGraph.incomingEdges, List.mem_reverse, List.mem_filter] at h
  exact List.mem_map.mpr ⟨e, List.mem_filter.mpr h, rfl⟩


/-! ## Totality on branch-free well-formed graphs -/

/-- The §3 well-formedness checks restricted to graphs without
`MatchBranching` nodes, as one executable predicate: edges stay in range,
the root is a `Compute` node, no node is a `MatchBranching`, and every
`Compute` node resolves to a plain callable each of whose input types is
supplied by an incoming edge. -/
def branchFreeWellFormed (g : RawCallGraph) (db : ComponentDb)
    (cdb : ComputationDb) (root : Nat) : Bool :=
  g.edges.all (fun e =>
    decide (e.source < g.nodes.length) && decide (e.target < g.nodes.length)) &&
  decide (root < g.nodes.length) &&
  (match g.nodes[root]? with
   | some (CallGraphNode.compute _ _) => true
   | _ => false) &&
  g.nodes.all (fun n => !(n == CallGraphNode.matchBranching)) &&
  (List.range g.nodes.length).all (fun i =>
    match g.nodes[i]? with
    | some (CallGraphNode.compute cid _) =>
      match db.hydrated_component cid cdb with
      | some comp =>
        match comp.computation with
        | Computation.callable c =>
          c.inputs.all (fun t =>
            (g.incomingEdges i).any (fun e =>
              match g.nodes[e.source]? with
              | some (CallGraphNode.compute scid _) =>
                match db.hydrated_component scid cdb with
                | some scomp => scomp.output_type == t
                | none => false
              | some (CallGraphNode.inputParameter ti) => ti == t
              | _ => false))
        | Computation.matchResult _ _ => false
      | none => false
    | _ => true)

theorem branchFreeWellFormed_edges {g : RawCallGraph} {db : ComponentDb}
    {cdb : ComputationDb} {root : Nat}
    (h : branchFreeWellFormed g db cdb root = true) :
    ∀ e ∈ g.edges, e.source < g.nodes.length ∧ e.target < g.nodes.length := by
  simp only [branchFreeWellFormed, Bool.and_eq_true, List.all_eq_true] at h
  intro e he
  have := h.1.1.1.1 e he
  simpa using this

theorem branchFreeWellFormed_noMB {g : RawCallGraph} {db : ComponentDb}
    {cdb : ComputationDb} {root : Nat}
    (h : branchFreeWellFormed g db cdb root = true) :
    ∀ i, g.isMatchBranching i = false := by
  simp only [branchFreeWellFormed, Bool.and_eq_true, List.all_eq_true] at h
  intro i
  cases hn : g.nodes[i]? with
  | none => simp [RawCallGraph.isMatchBranching, hn]
  | some n =>
    have hmem : n ∈ g.nodes := List.getElem?_mem hn
    have := h.1.2 n hmem
    simp only [Bool.not_eq_true', beq_eq_false_iff_ne, ne_eq] at this
    simp [RawCallGraph.isMatchBranching, hn, this]

theorem branchFreeWellFormed_root {g : RawCallGraph} {db : ComponentDb}
    {cdb : ComputationDb} {root : Nat}
    (h : branchFreeWellFormed g db cdb root = true) :
    root < g.nodes.length ∧
      ∃ cid na, g.nodes[root]? = some (CallGraphNode.compute cid na) := by
  simp only [branchFreeWellFormed, Bool.and_eq_true, List.all_eq_true] at h
  refine ⟨by simpa using h.1.1.1.2, ?_⟩
  have := h.1.1.2
  cases hn : g.nodes[root]? with
  | none => simp [hn] at this
  | some n =>
    simp only [hn] at this
    cases n with
    | compute cid na => exact ⟨cid, na, rfl⟩
    | inputParameter t => simp at this
    | matchBranching => simp at this

theorem branchFreeWellFormed_compute {g : RawCallGraph} {db : ComponentDb}
    {cdb : ComputationDb} {root : Nat}
    (h : branchFreeWellFormed g db cdb root = true) :
    ∀ i cid na, i < g.nodes.length →
      g.nodes[i]? = some (CallGraphNode.compute cid na) →
      ∃ comp c, db.hydrated_component cid cdb = some comp ∧
        comp.computation = Computation.callable c ∧
        ∀ t ∈ c.inputs, ∃ e ∈ g.incomingEdges i,
          (match g.nodes[e.source]? with
           | some (CallGraphNode.compute scid _) =>
             match db.hydrated_component scid cdb with
             | some scomp => scomp.output_type == t
             | none => false
           | some (CallGraphNode.inputParameter ti) => ti == t
           | _ => false) = true := by
  simp only [branchFreeWellFormed, Bool.and_eq_true, List.all_eq_true] at h
  intro i cid na hi hn
  have := h.2 i (List.mem_range.mpr hi)
  simp only [hn] at this
  cases hc : db.hydrated_component cid cdb with
  | none => simp [hc] at this
  | some comp =>
    simp only [hc] at this
    cases hcc : comp.computation with
    | matchResult v t => simp [hcc] at this
    | callable c =>
      simp only [hcc] at this
      refine ⟨comp, c, rfl, hcc, ?_⟩
      simp only [List.all_eq_true, List.any_eq_true] at this
      intro t ht
      obtain ⟨e, he, hmatch⟩ := this t ht
      exact ⟨e, he, hmatch⟩


theorem incomingEdges_subset (g : RawCallGraph) {i : Nat} {e : GraphEdge}
    (h : e ∈ g.incomingEdges i) : e ∈ g.edges := by
  simp only [RawCallGraph.incomingEdges, List.mem_reverse, List.mem_filter] at h
  exact h.1

/-- Under branch-free well-formedness, `get_node_type_inputs` succeeds, its
entries point at predecessors, and it supplies exactly the incoming edge
types. -/
theorem get_node_type_inputs_bf {g : RawCallGraph} {db : ComponentDb}
    {cdb : ComputationDb} {root : Nat}
    (hwf : branchFreeWellFormed g db cdb root = true) (i : Nat) :
    ∃ deps, get_node_type_inputs g i db cdb = Except.ok deps ∧
      (∀ d ∈ deps, d.1 ∈ g.predList i) ∧
      (∀ e ∈ g.incomingEdges i, ∀ t : ResolvedType,
        (match g.nodes[e.source]? with
         | some (CallGraphNode.compute scid _) =>
           match db.hydrated_component scid cdb with
           | some scomp => scomp.output_type == t
           | none => false
         | some (CallGraphNode.inputParameter ti) => ti == t
         | _ => false) = true →
        ∃ d ∈ deps, d.2.1 = t) := by
  unfold get_node_type_inputs
  have htot : ∀ e ∈ g.incomingEdges i,
      ∃ b, (do
        match g.nodes[e.source]? with
        | none => throw CodegenError.invalidNodeIndex
        | some (CallGraphNode.compute component_id _) =>
          match db.hydrated_component component_id cdb with
          | none => throw CodegenError.unknownComponent
          | some component => pure (e.source, component.output_type, e.weight)
        | some (CallGraphNode.inputParameter t) => pure (e.source, t, e.weight)
        | some CallGraphNode.matchBranching =>
          throw CodegenError.matchBranchingInput :
        Except CodegenError (Nat × ResolvedType × CallGraphEdgeMetadata)) =
        Except.ok b := by
    intro e he
    have hrange := (branchFreeWellFormed_edges hwf e (incomingEdges_subset g he)).1
    have hsome := List.getElem?_eq_getElem hrange
    cases hn : g.nodes[e.source]? with
    | none => rw [hn] at hsome; exact absurd hsome (by simp)
    | some n =>
      cases n with
      | compute scid sna =>
        obtain ⟨comp, c, hc, _, _⟩ :=
          branchFreeWellFormed_compute hwf e.source scid sna hrange hn
        exact ⟨(e.source, comp.output_type, e.weight), by simp [hn, hc]⟩
      | inputParameter ti =>
        exact ⟨(e.source, ti, e.weight), by simp [hn]⟩
      | matchBranching =>
        have := branchFreeWellFormed_noMB hwf e.source
        simp [RawCallGraph.isMatchBranching, hn] at this
  obtain ⟨deps, hdeps, hmem, hcov⟩ := exceptMap_ok htot
  refine ⟨deps, hdeps, ?_, ?_⟩
  · intro d hd
    obtain ⟨e, he, hFd⟩ := hmem d hd
    have hsrc := incomingEdges_source_mem_predList g he
    cases hn : g.nodes[e.source]? with
    | none => simp [hn] at hFd
    | some n =>
      cases n with
      | compute scid sna =>
        cases hc : db.hydrated_component scid cdb with
        | none => simp [hn, hc] at hFd
        | some comp =>
          simp only [hn, hc, pure_eq_ok, Except.ok.injEq] at hFd
          rw [← hFd]
          exact hsrc
      | inputParameter ti =>
        simp only [hn, pure_eq_ok, Except.ok.injEq] at hFd
        rw [← hFd]
        exact hsrc
      | matchBranching => simp [hn] at hFd
  · intro e he t hmatch
    obtain ⟨d, hd, hFd⟩ := hcov e he
    refine ⟨d, hd, ?_⟩
    cases hn : g.nodes[e.source]? with
    | none => simp [hn] at hmatch
    | some n =>
      cases n with
      | compute scid sna =>
        simp only [hn] at hmatch hFd
        cases hc : db.hydrated_component scid cdb with
        | none => simp [hc] at hmatch
        | some comp =>
          simp only [hc, beq_iff_eq] at hmatch
          simp only [hc, pure_eq_ok, Except.ok.injEq] at hFd
          rw [← hFd]
          exact hmatch
      | inputParameter ti =>
        simp only [hn, beq_iff_eq] at hmatch
        simp only [hn, pure_eq_ok, Except.ok.injEq] at hFd
        rw [← hFd]
        exact hmatch
      | matchBranching => simp [hn] at hmatch

/-- A call block is generated whenever every input type has a dependency and
every dependency has a bound fragment. -/
theorem codegen_call_block_bf {deps : List (Nat × ResolvedType × CallGraphEdgeMetadata)}
    {c : Callable} {blocks : List (Nat × Fragment)}
    (hcovd : ∀ t ∈ c.inputs, ∃ d ∈ deps, d.2.1 = t)
    (hlook : ∀ d ∈ deps, (lookupFragment blocks d.1).isSome = true) :
    ∃ b, codegen_call_block deps c blocks = Except.ok b := by
  have hdef : codegen_call_block deps c blocks =
      (exceptMap (fun t =>
        match deps.find? (fun d => d.2.1 == t) with
        | none => Except.error CodegenError.missingDependency
        | some d =>
          match lookupFragment blocks d.1 with
          | none => Except.error CodegenError.missingFragment
          | some f => Except.ok (renderArg d.2.2 f)) c.inputs) >>=
        (fun args => Except.ok
          (Fragment.statement (Stmt.exprS (Expr.call c.name args)))) := rfl
  have htot : ∀ t ∈ c.inputs,
      ∃ b, (match deps.find? (fun d => d.2.1 == t) with
        | none => Except.error CodegenError.missingDependency
        | some d =>
          match lookupFragment blocks d.1 with
          | none => Except.error CodegenError.missingFragment
          | some f => Except.ok (renderArg d.2.2 f) :
        Except CodegenError Expr) = Except.ok b := by
    intro t ht
    obtain ⟨d, hd, hdt⟩ := hcovd t ht
    have hfind : (deps.find? (fun d => d.2.1 == t)).isSome = true :=
      List.find?_isSome.mpr ⟨d, hd, by simp [hdt]⟩
    cases hf : deps.find? (fun d => d.2.1 == t) with
    | none => rw [hf] at hfind; simp at hfind
    | some d₀ =>
      have hd₀ : d₀ ∈ deps := List.mem_of_find?_eq_some hf
      have hl := hlook d₀ hd₀
      cases hlf : lookupFragment blocks d₀.1 with
      | none => rw [hlf] at hl; simp at hl
      | some f => exact ⟨renderArg d₀.2.2 f, by simp [hlf]⟩
  obtain ⟨args, hargs, _, _⟩ := exceptMap_ok htot
  refine ⟨Fragment.statement (Stmt.exprS (Expr.call c.name args)), ?_⟩
  rw [hdef, hargs]
  rfl


/-- One step of the branch-free traversal: each node processes successfully
and binds a fragment for itself on top of the existing map. -/
theorem processNode_bf_ok (ctx : CodegenCtx) (root : Nat)
    (hwf : branchFreeWellFormed ctx.call_graph ctx.component_db
      ctx.computation_db root = true)
    (hbind : ∀ (i : Nat) (t : ResolvedType), ctx.call_graph.nodes[i]? =
        some (CallGraphNode.inputParameter t) →
      (ctx.parameter_bindings.find? (fun p => p.1 == t)).isSome = true)
    (ts : Nat) (av : List Nat) (st : EmitState) (i : Nat) (f : Nat)
    (hf : 1 ≤ f) (hi : i < ctx.call_graph.nodes.length)
    (hpred : ∀ p ∈ ctx.call_graph.predList i,
      (lookupFragment st.blocks p).isSome = true) :
    ∃ st' frag, processNode f ctx ts av st i = Except.ok st' ∧
      st'.blocks = (i, frag) :: st.blocks := by
  obtain ⟨f', rfl⟩ : ∃ f', f = f' + 1 := ⟨f - 1, by omega⟩
  have hsome := List.getElem?_eq_getElem hi
  simp only [processNode]
  cases hn : ctx.call_graph.nodes[i]? with
  | none => rw [hn] at hsome; exact absurd hsome (by simp)
  | some n =>
    cases n with
    | matchBranching =>
      have := branchFreeWellFormed_noMB hwf i
      simp [RawCallGraph.isMatchBranching, hn] at this
    | inputParameter t =>
      have hb := hbind i t hn
      cases hfp : ctx.parameter_bindings.find? (fun p => p.1 == t) with
      | none => rw [hfp] at hb; simp at hb
      | some p =>
        refine ⟨{ st with blocks := (i, Fragment.variableReference p.2) :: st.blocks }, Fragment.variableReference p.2, ?_, rfl⟩
        simp [hfp]
    | compute cid na =>
      obtain ⟨comp, c, hc, hcc, hcover⟩ :=
        branchFreeWellFormed_compute hwf i cid na hi hn
      obtain ⟨deps, hdeps, hdpred, hdcov⟩ := get_node_type_inputs_bf hwf i
      have hcovd : ∀ t ∈ c.inputs, ∃ d ∈ deps, d.2.1 = t := by
        intro t ht
        obtain ⟨e, he, hmatch⟩ := hcover t ht
        exact hdcov e he t hmatch
      have hlook : ∀ d ∈ deps, (lookupFragment st.blocks d.1).isSome = true :=
        fun d hd => hpred d.1 (hdpred d hd)
      obtain ⟨block, hblock⟩ := codegen_call_block_bf hcovd hlook
      rcases hgen : st.generator.generate with ⟨pname, gen'⟩
      simp only [hc, hcc, hdeps, hblock, ok_bind, throw_eq_error, pure_eq_ok]
      cases hcond : (i == ts || na == NumberOfAllowedInvocations.multiple) with
      | true =>
        refine ⟨{ st with blocks := (i, block) :: st.blocks }, block, ?_, rfl⟩
        simp [hcond]
      | false =>
        refine ⟨EmitState.mk gen' (st.at_most_once_constructor_blocks ++ [(i, Stmt.letS pname block.toExpr)]) ((i, Fragment.variableReference pname) :: st.blocks), Fragment.variableReference pname, ?_, rfl⟩
        simp [hcond, hgen]


/-- The branch-free traversal loop succeeds and binds a fragment for every
node it processes. -/
theorem processNodes_bf_ok (ctx : CodegenCtx) (root : Nat)
    (hwf : branchFreeWellFormed ctx.call_graph ctx.component_db
      ctx.computation_db root = true)
    (hbind : ∀ (i : Nat) (t : ResolvedType), ctx.call_graph.nodes[i]? =
        some (CallGraphNode.inputParameter t) →
      (ctx.parameter_bindings.find? (fun p => p.1 == t)).isSome = true)
    (ts : Nat) (av : List Nat) (order : List Nat)
    (hrange : ∀ z ∈ order, z < ctx.call_graph.nodes.length)
    (horder : ∀ l₁ z l₂, order = l₁ ++ z :: l₂ →
      ∀ y ∈ ctx.call_graph.predList z, y ∈ l₁) :
    ∀ (rest done : List Nat) (st : EmitState) (fuel : Nat),
      order = done ++ rest →
      2 * rest.length + 1 ≤ fuel →
      (∀ z ∈ done, (lookupFragment st.blocks z).isSome = true) →
      ∃ st', processNodes fuel ctx ts av st rest = Except.ok st' ∧
        ∀ z ∈ order, (lookupFragment st'.blocks z).isSome = true := by
  intro rest
  induction rest with
  | nil =>
    intro done st fuel hsplit _ hdone
    refine ⟨st, ?_, ?_⟩
    · cases fuel <;> rfl
    · intro z hz
      rw [hsplit, List.append_nil] at hz
      exact hdone z hz
  | cons i rest' ih =>
    intro done st fuel hsplit hfuel hdone
    simp only [List.length_cons] at hfuel
    obtain ⟨f, rfl⟩ : ∃ f, fuel = f + 1 := ⟨fuel - 1, by omega⟩
    have hi : i < ctx.call_graph.nodes.length := by
      refine hrange i ?_
      rw [hsplit]
      exact List.mem_append.mpr (Or.inr (List.mem_cons_self _ _))
    have hpred : ∀ p ∈ ctx.call_graph.predList i,
        (lookupFragment st.blocks p).isSome = true := by
      intro p hp
      exact hdone p (horder done i rest' hsplit p hp)
    obtain ⟨st₁, frag, hstep, hblocks⟩ :=
      processNode_bf_ok ctx root hwf hbind ts av st i f (by omega) hi hpred
    have hdone₁ : ∀ z ∈ done ++ [i],
        (lookupFragment st₁.blocks z).isSome = true := by
      intro z hz
      rw [hblocks]
      rcases List.mem_append.mp hz with hz | hz
      · exact lookupFragment_cons_isSome (hdone z hz)
      · simp only [List.mem_singleton] at hz
        subst hz
        exact lookupFragment_cons_self
    obtain ⟨st', hrun, hall⟩ := ih (done ++ [i]) st₁ f
      (by rw [hsplit]; simp) (by omega) hdone₁
    refine ⟨st', ?_, hall⟩
    simp only [processNodes, hstep, ok_bind]
    exact hrun


theorem predList_mem_ex {g : RawCallGraph} {a z : Nat} (h : z ∈ g.predList a) :
    ∃ e ∈ g.edges, e.source = z := by
  simp only [RawCallGraph.predList, List.mem_map, List.mem_filter] at h
  obtain ⟨e, ⟨he, _⟩, rfl⟩ := h
  exact ⟨e, he, rfl⟩

theorem succList_mem_ex {g : RawCallGraph} {a z : Nat} (h : z ∈ g.succList a) :
    ∃ e ∈ g.edges, e.target = z := by
  simp only [RawCallGraph.succList, List.mem_map, List.mem_filter] at h
  obtain ⟨e, ⟨he, _⟩, rfl⟩ := h
  exact ⟨e, he, rfl⟩

/-- On an acyclic graph the terminal search always succeeds, returning a
reachable node with no successors. -/
theorem find_terminal_bf (g : RawCallGraph) (hacycS : AcyclicNbrs g.succList)
    (root : Nat) :
    ∃ t, find_terminal_descendant g root = some t ∧ g.succList t = [] ∧
      ReachN g.succList root t := by
  unfold find_terminal_descendant
  cases hdfs : dfsPost g.succList g.dfsFuel [] root with
  | none => exact absurd hdfs (dfsPost_dfsFuel_total_succ g [] root)
  | some p =>
    obtain ⟨order₀, v₀⟩ := p
    show ∃ t, order₀.find? (fun i => (g.succList i).isEmpty) = some t ∧
      g.succList t = [] ∧ ReachN g.succList root t
    have hchar := (dfsPost_char g.succList g.dfsFuel).1 [] root order₀ v₀ hdfs
    have hroot_mem : root ∈ order₀ := by
      have := (hchar.1 root).mp hchar.2.2.2
      simpa using this
    obtain ⟨z₀, tail, horder⟩ :=
      List.exists_cons_of_ne_nil (List.ne_nil_of_mem hroot_mem)
    have hz₀ : g.succList z₀ = [] := by
      rw [List.eq_nil_iff_forall_not_mem]
      intro y hy
      have := dfsPost_prefix_closed hacycS hdfs [] z₀ tail (by rw [horder]; rfl) y hy
      simp at this
    have hfind : (order₀.find? (fun i => (g.succList i).isEmpty)).isSome = true := by
      refine List.find?_isSome.mpr ⟨z₀, ?_, ?_⟩
      · rw [horder]; exact List.mem_cons_self _ _
      · simp [hz₀]
    cases hf : order₀.find? (fun i => (g.succList i).isEmpty) with
    | none => rw [hf] at hfind; simp at hfind
    | some t =>
      refine ⟨t, rfl, ?_, ?_⟩
      · have := List.find?_some hf
        simpa [List.isEmpty_iff] using this
      · exact (dfsPost_reach g.succList g.dfsFuel).1 [] root order₀ v₀ hdfs t
          (List.mem_of_find?_eq_some hf)

/-- Without `MatchBranching` nodes, the ancestor search returns nothing. -/
theorem fmba_none_of_noMB (g : RawCallGraph)
    (hnoMB : ∀ i, g.isMatchBranching i = false) (t : Nat) (visited : List Nat) :
    find_match_branching_ancestor g t visited = none := by
  unfold find_match_branching_ancestor
  cases hdfs : dfsPost g.predList g.dfsFuel [] t with
  | none => rfl
  | some p =>
    obtain ⟨order, v⟩ := p
    refine List.find?_eq_none.mpr ?_
    intro a _
    simp [hnoMB a]

/-- Body generation succeeds on every branch-free well-formed graph. -/
theorem codegenBody_bf_ok (ctx : CodegenCtx) (root : Nat)
    (hacyc : AcyclicNbrs ctx.call_graph.predList)
    (hwf : branchFreeWellFormed ctx.call_graph ctx.component_db
      ctx.computation_db root = true)
    (hbind : ∀ (i : Nat) (t : ResolvedType), ctx.call_graph.nodes[i]? =
        some (CallGraphNode.inputParameter t) →
      (ctx.parameter_bindings.find? (fun p => p.1 == t)).isSome = true)
    (gen : VariableNameGenerator) :
    ∃ body, codegenBody ctx.call_graph.armFuel ctx gen [] [] [] root =
      Except.ok body := by
  have hacycS := acyclic_succ_of_acyclic_pred ctx.call_graph hacyc
  obtain ⟨t, hT, htEmpty, htReach⟩ := find_terminal_bf ctx.call_graph hacycS root
  have hfmba := fmba_none_of_noMB ctx.call_graph
    (branchFreeWellFormed_noMB hwf) t []
  cases hdfs : dfsPost ctx.call_graph.predList ctx.call_graph.dfsFuel [] t with
  | none => exact absurd hdfs (dfsPost_dfsFuel_total ctx.call_graph [] t)
  | some p =>
    obtain ⟨order, v'⟩ := p
    have hchar := (dfsPost_char ctx.call_graph.predList
      ctx.call_graph.dfsFuel).1 [] t order v' hdfs
    have ht_mem : t ∈ order := by
      have := (hchar.1 t).mp hchar.2.2.2
      simpa using this
    -- every emitted node is a valid index
    have ht_range : t < ctx.call_graph.nodes.length := by
      rcases htReach.cases_mem with rfl | ⟨a, ha⟩
      · exact (branchFreeWellFormed_root hwf).1
      · obtain ⟨e, he, hes⟩ := succList_mem_ex ha
        rw [← hes]
        exact (branchFreeWellFormed_edges hwf e he).2
    have hrange : ∀ z ∈ order, z < ctx.call_graph.nodes.length := by
      intro z hz
      have hr := (dfsPost_reach ctx.call_graph.predList
        ctx.call_graph.dfsFuel).1 [] t order v' hdfs z hz
      rcases hr.cases_mem with rfl | ⟨a, ha⟩
      · exact ht_range
      · obtain ⟨e, he, hes⟩ := predList_mem_ex ha
        rw [← hes]
        exact (branchFreeWellFormed_edges hwf e he).1
    have horder : ∀ l₁ z l₂, order = l₁ ++ z :: l₂ →
        ∀ y ∈ ctx.call_graph.predList z, y ∈ l₁ :=
      fun l₁ z l₂ hsplit y hy =>
        dfsPost_prefix_closed hacyc hdfs l₁ z l₂ hsplit y hy
    -- fuel budget for the loop
    have hlen : order.length ≤ 2 * ctx.call_graph.edges.length + 1 := by
      have h₁ := dfsPost_order_length_le ctx.call_graph ctx.call_graph.predList
        (predList_subset_pool ctx.call_graph) hdfs
      have h₂ : ctx.call_graph.nodePool.length =
          2 * ctx.call_graph.edges.length := by
        simp [RawCallGraph.nodePool]
        omega
      omega
    obtain ⟨F, hF⟩ : ∃ F, ctx.call_graph.armFuel = F + 1 := by
      refine ⟨ctx.call_graph.armFuel - 1, ?_⟩
      have : 24 ≤ ctx.call_graph.armFuel := by
        have : ctx.call_graph.armFuel =
            (4 * ctx.call_graph.edges.length + 12) *
              (2 * ctx.call_graph.edges.length + 2) := rfl
        nlinarith [ctx.call_graph.edges.length.zero_le]
      omega
    have hbudget : 2 * order.length + 1 ≤ F := by
      have h₃ : ctx.call_graph.armFuel =
          (4 * ctx.call_graph.edges.length + 12) *
            (2 * ctx.call_graph.edges.length + 2) := rfl
      nlinarith [ctx.call_graph.edges.length.zero_le]
    obtain ⟨st', hrun, hall⟩ := processNodes_bf_ok ctx root hwf hbind t v'
      order hrange horder order [] ⟨gen, [], []⟩ F rfl hbudget (by simp)
    have ht_frag := hall t ht_mem
    cases hfrag : lookupFragment st'.blocks t with
    | none => rw [hfrag] at ht_frag; simp at ht_frag
    | some fragment =>
      refine ⟨st'.at_most_once_constructor_blocks.map (fun p => p.2) ++
        fragment.stmts, ?_⟩
      rw [hF]
      simp only [codegenBody, hT, Option.elim, ok_bind, pure_eq_ok, hfmba,
        Option.getD_none, hdfs, hrun, hfrag]


/-- The full generator succeeds on every acyclic branch-free well-formed
graph: the closure-level plumbing adds no failure modes. -/
theorem codegen_callable_closure_bf_ok (cg : CallGraph)
    (pkg : List (Nat × String)) (db : ComponentDb) (cdb : ComputationDb)
    (hacyc : AcyclicNbrs cg.call_graph.predList)
    (hwf : branchFreeWellFormed cg.call_graph db cdb cg.root_node_index = true) :
    ∃ fn, codegen_callable_closure cg pkg db cdb = Except.ok fn := by
  have hbind : ∀ (i : Nat) (t : ResolvedType), cg.call_graph.nodes[i]? =
      some (CallGraphNode.inputParameter t) →
      (((closureParameterBindings cg).1).find? (fun p => p.1 == t)).isSome = true := by
    intro i t hn
    have hmem : CallGraphNode.inputParameter t ∈ cg.call_graph.nodes :=
      List.getElem?_mem hn
    have hreq : t ∈ cg.required_input_types :=
      (mem_required_input_types cg t).mpr hmem
    have hmap : t ∈ ((closureParameterBindings cg).1).map (fun p => p.1) := by
      rw [closureParameterBindings_fst]
      exact hreq
    obtain ⟨p, hp, hpt⟩ := List.mem_map.mp hmap
    exact List.find?_isSome.mpr ⟨p, hp, by simp [hpt]⟩
  obtain ⟨body, hbody⟩ := codegenBody_bf_ok
    ⟨cg.call_graph, (closureParameterBindings cg).1, pkg, db, cdb⟩
    cg.root_node_index hacyc hwf hbind (closureParameterBindings cg).2
  obtain ⟨hroot_lt, cid, na, hroot⟩ := branchFreeWellFormed_root hwf
  obtain ⟨comp, c, hc, _, _⟩ :=
    branchFreeWellFormed_compute hwf cg.root_node_index cid na hroot_lt hroot
  refine ⟨ItemFn.mk "handler" true ((closureParameterBindings cg).1.map (fun p => (p.2, p.1.syn_type pkg))) (comp.output_type.syn_type pkg) body, ?_⟩
  unfold codegen_callable_closure codegen_callable_closure_body
  simp only [hbody, ok_bind, hroot, hc, Option.elim, pure_eq_ok]


/-- The §3 invariants of the spec, as one executable check (acyclicity, which
is not finitely decidable over `Nat`-indexed neighbor functions, is stated
separately as `AcyclicNbrs`): edges in range, a single sink which is the
`Compute` root, resolvable components, the `MatchBranching` shape (one
incoming edge, two outgoing edges, one `Ok` and one `Err` `MatchResult`
successor), `MatchResult` nodes fed by exactly one `MatchBranching` edge,
`InputParameter` nodes as sources, and pairwise-distinct input types. -/
def specWellFormed (g : RawCallGraph) (db : ComponentDb)
    (cdb : ComputationDb) (root : Nat) : Bool :=
  g.edges.all (fun e =>
    decide (e.source < g.nodes.length) && decide (e.target < g.nodes.length)) &&
  decide (root < g.nodes.length) &&
  (match g.nodes[root]? with
   | some (CallGraphNode.compute _ _) => true
   | _ => false) &&
  (List.range g.nodes.length).all (fun i =>
    !(g.succList i).isEmpty || i == root) &&
  (g.succList root).isEmpty &&
  (List.range g.nodes.length).all (fun i =>
    match g.nodes[i]? with
    | some (CallGraphNode.compute cid _) =>
      (db.hydrated_component cid cdb).isSome
    | _ => true) &&
  (List.range g.nodes.length).all (fun i =>
    match g.nodes[i]? with
    | some CallGraphNode.matchBranching =>
      (g.predList i).length == 1 &&
      (match g.succList i with
       | [a, b] =>
         (match variantTypeOf g db cdb a, variantTypeOf g db cdb b with
          | Except.ok MatchResultVariant.ok, Except.ok MatchResultVariant.err => true
          | Except.ok MatchResultVariant.err, Except.ok MatchResultVariant.ok => true
          | _, _ => false)
       | _ => false)
    | _ => true) &&
  (List.range g.nodes.length).all (fun i =>
    match g.nodes[i]? with
    | some (CallGraphNode.compute cid _) =>
      match db.hydrated_component cid cdb with
      | some comp =>
        match comp.computation with
        | Computation.matchResult _ _ =>
          match g.predList i with
          | [p] => g.isMatchBranching p
          | _ => false
        | _ => true
      | none => false
    | _ => true) &&
  (List.range g.nodes.length).all (fun i =>
    match g.nodes[i]? with
    | some (CallGraphNode.inputParameter _) => (g.predList i).isEmpty
    | _ => true) &&
  decide (g.nodes.filterMap (fun n => match n with
    | CallGraphNode.inputParameter t => some t
    | _ => none)).Nodup

theorem crossArm_acyclic : AcyclicNbrs crossArmGraph.predList := by
  refine acyclicNbrs_of_rank (fun i => i) ?_
  intro a b hb
  simp only [RawCallGraph.predList, crossArmGraph,
    List.mem_map, List.mem_filter] at hb
  obtain ⟨e, he, hsrc⟩ := hb
  obtain ⟨hmem, htgt⟩ := he
  subst hsrc
  simp only [List.mem_cons, List.not_mem_nil, or_false] at hmem
  rcases hmem with rfl | rfl | rfl | rfl | rfl <;>
    · simp only [beq_iff_eq] at htgt
      subst htgt
      decide

/-- Counterexample to C7: the cross-arm graph satisfies every §3 invariant —
acyclic, single `Compute` root, binary `MatchBranching` with one `Ok` and one
`Err` `MatchResult` successor — yet the generator panics on a missing
fragment, because the handler consumes values from both match arms. -/
theorem crossArm_wellformed_yet_panics :
    AcyclicNbrs crossArmGraph.predList ∧
    specWellFormed crossArmGraph crossArmComponentDb crossArmComputationDb
      4 = true ∧
    codegen_callable_closure ⟨crossArmGraph, 4⟩ [] crossArmComponentDb
      crossArmComputationDb = Except.error CodegenError.missingFragment :=
  ⟨crossArm_acyclic, by decide, rfl⟩


/-! Two malformed graphs exercising the programmer-facing aborts: a
`MatchBranching` with a single variant, and one whose variants are both
`Err` projections. -/

def nonBinaryComputationDb : ComputationDb := ⟨[
  Computation.callable ⟨"c", [], tResultAE⟩,
  Computation.matchResult MatchResultVariant.ok tA]⟩

def nonBinaryComponentDb : ComponentDb := ⟨[
  (ComponentKind.constructor, 0),
  (ComponentKind.transformer, 1)]⟩

/-- Node 0: fallible `c`; node 1: `MatchBranching` with a single variant;
node 2: the lone `Ok` projection (the root). -/
def nonBinaryGraph : RawCallGraph := ⟨
  [CallGraphNode.compute 0 NumberOfAllowedInvocations.single,
   CallGraphNode.matchBranching,
   CallGraphNode.compute 1 NumberOfAllowedInvocations.single],
  [⟨0, 1, CallGraphEdgeMetadata.move⟩,
   ⟨1, 2, CallGraphEdgeMetadata.move⟩]⟩

def twoErrComputationDb : ComputationDb := ⟨[
  Computation.callable ⟨"c", [], tResultAE⟩,
  Computation.matchResult MatchResultVariant.err tE,
  Computation.matchResult MatchResultVariant.err tE,
  Computation.callable ⟨"h1", [tE], tResponse⟩,
  Computation.callable ⟨"h2", [tE], tResponse⟩]⟩

def twoErrComponentDb : ComponentDb := ⟨[
  (ComponentKind.constructor, 0),
  (ComponentKind.transformer, 1),
  (ComponentKind.transformer, 2),
  (ComponentKind.requestHandler, 3),
  (ComponentKind.errorHandler, 4)]⟩

/-- Node 0: fallible `c`; node 1: `MatchBranching`; nodes 2 and 3: two `Err`
projections (no `Ok` child); node 4: handler (the root); node 5: a second
consumer. -/
def twoErrGraph : RawCallGraph := ⟨
  [CallGraphNode.compute 0 NumberOfAllowedInvocations.single,
   CallGraphNode.matchBranching,
   CallGraphNode.compute 1 NumberOfAllowedInvocations.single,
   CallGraphNode.compute 2 NumberOfAllowedInvocations.single,
   CallGraphNode.compute 3 NumberOfAllowedInvocations.single,
   CallGraphNode.compute 4 NumberOfAllowedInvocations.single],
  [⟨0, 1, CallGraphEdgeMetadata.move⟩,
   ⟨1, 2, CallGraphEdgeMetadata.move⟩,
   ⟨1, 3, CallGraphEdgeMetadata.move⟩,
   ⟨2, 4, CallGraphEdgeMetadata.move⟩,
   ⟨3, 5, CallGraphEdgeMetadata.move⟩]⟩

theorem chain_acyclic : AcyclicNbrs chainGraph.predList := by
  refine acyclicNbrs_of_rank (fun i => i) ?_
  intro a b hb
  simp only [RawCallGraph.predList, chainGraph,
    List.mem_map, List.mem_filter] at hb
  obtain ⟨e, he, hsrc⟩ := hb
  obtain ⟨hmem, htgt⟩ := he
  subst hsrc
  simp only [List.mem_cons, List.not_mem_nil, or_false] at hmem
  rcases hmem with rfl | rfl | rfl <;>
    · simp only [beq_iff_eq] at htgt
      subst htgt
      decide

/-- C7 (amended): code generation is not total on §3-well-formed graphs
(see the cross-arm counterexample), but it is total on acyclic well-formed
graphs without `MatchBranching` nodes; and the programmer-facing aborts do
fire: a non-binary `MatchBranching` aborts with the arity panic, and a
`MatchBranching` lacking an `Ok` child aborts with the missing-Ok-arm
panic. -/
theorem codegen_totality_characterization :
    (∀ (cg : CallGraph) (pkg : List (Nat × String)) (db : ComponentDb)
        (cdb : ComputationDb),
      AcyclicNbrs cg.call_graph.predList →
      branchFreeWellFormed cg.call_graph db cdb cg.root_node_index = true →
      ∃ fn, codegen_callable_closure cg pkg db cdb = Except.ok fn) ∧
    codegen_callable_closure ⟨nonBinaryGraph, 2⟩ [] nonBinaryComponentDb
      nonBinaryComputationDb = Except.error CodegenError.nonBinaryMatch ∧
    codegen_callable_closure ⟨twoErrGraph, 4⟩ [] twoErrComponentDb
      twoErrComputationDb = Except.error CodegenError.missingOkArm :=
  ⟨fun cg pkg db cdb hacyc hwf =>
    codegen_callable_closure_bf_ok cg pkg db cdb hacyc hwf, rfl, rfl⟩

/-- Witness for the amended C7: the three-constructor chain is acyclic and
branch-free well-formed, and the generator succeeds on it. -/
theorem codegen_totality_characterization_witness :
    AcyclicNbrs chainGraph.predList ∧
    branchFreeWellFormed chainGraph chainComponentDb chainComputationDb
      3 = true ∧
    ∃ fn, codegen_callable_closure ⟨chainGraph, 3⟩ [] chainComponentDb
      chainComputationDb = Except.ok fn :=
  ⟨chain_acyclic, by decide,
    codegen_totality_characterization.1 ⟨chainGraph, 3⟩ [] chainComponentDb
      chainComputationDb chain_acyclic (by decide)⟩

end Pavex
